import Mathlib

/-!
# snappy_nif.cc: the growable sink and the compress / decompress facade

A shallow embedding of `c_src/snappy_nif.cc`.  The C++ object state of
`SnappyNifSink` is passed explicitly, the NIF binary allocator is a `Heap`
value threaded through every call, `size_t` arithmetic is `Nat` arithmetic
reduced modulo `2 ^ 64`, and a C++ `throw` is an `Except.error`.
The compression engine (`snappy::Compress`, `snappy::GetUncompressedLength`,
`snappy::RawUncompress`) is not part of the repository and is a parameter.
-/

namespace SnappyNif

/-- One `unsigned char`. -/
abbrev Byte := UInt8

/-- The number of values of a `size_t` (64-bit build). -/
def SIZE_T : Nat := 2 ^ 64

/-- An `ErlNifBinary`: the bytes behind `data` (there are `size` of them) and the identity
of the underlying allocation (`ref_bin`). -/
structure ErlNifBinary where
  data : List Byte
  ref : Nat
  deriving DecidableEq, Repr

/-- The `size` field of an `ErlNifBinary`: the number of bytes behind `data`. -/
def ErlNifBinary.size (b : ErlNifBinary) : Nat := b.data.length

/-- The binary allocator of the host runtime.  `oracle` lists the outcomes of the coming
allocation requests (`false`: the request fails; an exhausted list: requests succeed),
`next` is the next fresh allocation identity, `live` the allocations owned by native code,
`nrealloc` counts the successful `enif_realloc_binary` calls and `nfailed` the allocation
requests that failed. -/
structure Heap where
  oracle : List Bool
  next : Nat
  live : List Nat
  nrealloc : Nat
  nfailed : Nat
  deriving DecidableEq, Repr

/-- Exceptions that cross the code: `std::bad_alloc` and anything else. -/
inductive Exn where
  | bad_alloc
  | other
  deriving DecidableEq, Repr

deriving instance DecidableEq for Except

/-- The error atoms of `make_error`. -/
inductive Reason where
  | insufficient_memory
  | data_not_compressed
  | corrupted_data
  | unknown
  deriving DecidableEq, Repr

/-- The terms the NIF functions return: `{ok, Binary}`, `{error, Reason}`, `badarg`. -/
inductive Term where
  | ok (bytes : List Byte)
  | error (r : Reason)
  | badarg
  deriving DecidableEq, Repr

/-- The argument `argv[0]`: something `enif_inspect_iolist_as_binary` accepts (and flattens),
or anything else. -/
inductive Arg where
  | iolist (bytes : List Byte)
  | other
  deriving DecidableEq, Repr

/-- A `const char*` handed to the sink: memory owned by the caller holding `bytes`, or the
address `SC_PTR(bin.data) + off` inside the sink's own binary. -/
inductive CharPtr where
  | ext (bytes : List Byte)
  | slot (off : Nat)
  deriving DecidableEq, Repr

/-- Storing `bytes` at offset `off` of a buffer; what falls outside the buffer is not part
of the buffer afterwards. -/
def writeAt (buf : List Byte) (off : Nat) (bytes : List Byte) : List Byte :=
  (buf.take off ++ bytes ++ buf.drop (off + bytes.length)).take buf.length

/-- `enif_alloc_binary(size, &bin)`: `none` is the return value 0. -/
def enif_alloc_binary (size : Nat) (h : Heap) : Option ErlNifBinary × Heap :=
  match h.oracle with
  | false :: rest => (none, { h with oracle := rest, nfailed := h.nfailed + 1 })
  | _ =>
    (some { data := List.replicate size 0, ref := h.next },
     { h with oracle := h.oracle.tail, next := h.next + 1, live := h.next :: h.live })

/-- `enif_realloc_binary(&bin, size)`: keeps the first `min(old, new)` bytes; `none` is the
return value 0 (the binary is left as it was). -/
def enif_realloc_binary (bin : ErlNifBinary) (size : Nat) (h : Heap) :
    Option ErlNifBinary × Heap :=
  match h.oracle with
  | false :: rest => (none, { h with oracle := rest, nfailed := h.nfailed + 1 })
  | _ =>
    (some { bin with data := bin.data.take size ++ List.replicate (size - bin.data.length) 0 },
     { h with oracle := h.oracle.tail, nrealloc := h.nrealloc + 1 })

/-- `enif_release_binary(&bin)`: the allocation is no longer live (nothing happens when its
ownership was transferred before). -/
def enif_release_binary (bin : ErlNifBinary) (h : Heap) : Heap :=
  { h with live := h.live.erase bin.ref }

/-- `enif_make_binary(env, &bin)`: the bytes become a term, which takes the ownership. -/
def enif_make_binary (bin : ErlNifBinary) (h : Heap) : List Byte × Heap :=
  (bin.data, { h with live := h.live.erase bin.ref })

/-- The state of a `SnappyNifSink` (`env` is non-null in every constructed sink). -/
structure SnappyNifSink where
  bin : ErlNifBinary
  length : Nat
  deriving DecidableEq, Repr

/-- The result of a sink method: the value returned or the exception thrown, the sink
afterwards, the heap afterwards. -/
abbrev Res (α : Type) := Except Exn α × SnappyNifSink × Heap

/-- `SnappyNifSink::SnappyNifSink`: `length(0)` and a zero-byte binary; throws
`std::bad_alloc` when the allocation fails (no object is constructed then). -/
def SnappyNifSink.new (h : Heap) : Except Exn SnappyNifSink × Heap :=
  match enif_alloc_binary 0 h with
  | (none, h1) => (.error .bad_alloc, h1)
  | (some b, h1) => (.ok { bin := b, length := 0 }, h1)

/-- `SnappyNifSink::~SnappyNifSink`. -/
def SnappyNifSink.destroy (s : SnappyNifSink) (h : Heap) : Heap :=
  enif_release_binary s.bin h

/-- `SnappyNifSink::EnsureSize`. -/
def EnsureSize (s : SnappyNifSink) (append_length : Nat) (h : Heap) : Res Unit :=
  if (s.length + append_length) % SIZE_T > s.bin.size then
    let sz := append_length * 4 % SIZE_T
    let sz := if sz < 8192 then 8192 else sz
    match enif_realloc_binary s.bin ((s.bin.size + sz) % SIZE_T) h with
    | (none, h1) => (.error .bad_alloc, s, h1)
    | (some b, h1) => (.ok (), { s with bin := b }, h1)
  else (.ok (), s, h)

/-- The `n` bytes `memcpy` reads from `data`. -/
def readBytes (bin : ErlNifBinary) (data : CharPtr) (n : Nat) : List Byte :=
  match data with
  | .ext bytes => bytes.take n
  | .slot off => (bin.data.drop off).take n

/-- `SnappyNifSink::Append`. -/
def Append (s : SnappyNifSink) (data : CharPtr) (n : Nat) (h : Heap) : Res Unit :=
  if data ≠ CharPtr.slot s.length then
    match EnsureSize s n h with
    | (.error e, s1, h1) => (.error e, s1, h1)
    | (.ok (), s1, h1) =>
      (.ok (),
       { bin := { s1.bin with data := writeAt s1.bin.data s1.length (readBytes s1.bin data n) },
         length := (s1.length + n) % SIZE_T }, h1)
  else (.ok (), { s with length := (s.length + n) % SIZE_T }, h)

/-- `SnappyNifSink::GetAppendBuffer` (the `scratch` argument is not used). -/
def GetAppendBuffer (s : SnappyNifSink) (len : Nat) (h : Heap) : Res CharPtr :=
  match EnsureSize s len h with
  | (.error e, s1, h1) => (.error e, s1, h1)
  | (.ok (), s1, h1) => (.ok (CharPtr.slot s1.length), s1, h1)

/-- `SnappyNifSink::GetBin`: the value returned is the sink's binary. -/
def GetBin (s : SnappyNifSink) (h : Heap) : Res ErlNifBinary :=
  if s.bin.size > s.length then
    match enif_realloc_binary s.bin s.length h with
    | (none, h1) => (.error .bad_alloc, s, h1)
    | (some b, h1) => (.ok b, { s with bin := b }, h1)
  else (.ok s.bin, s, h)

/-- The writer of the engine storing `bytes` through a pointer into the sink's binary. -/
def store (s : SnappyNifSink) (p : CharPtr) (bytes : List Byte) : SnappyNifSink :=
  match p with
  | .slot off => { s with bin := { s.bin with data := writeAt s.bin.data off bytes } }
  | .ext _ => s

/-- One operation on the sink's interface, as a caller may issue it. -/
inductive SinkOp where
  | getAppendBuffer (len : Nat)
  | append (data : CharPtr) (n : Nat)
  | getBin
  deriving DecidableEq, Repr

/-- Issuing one operation; the value a method returns is dropped. -/
def runOp (s : SnappyNifSink) (op : SinkOp) (h : Heap) : Res Unit :=
  match op with
  | .getAppendBuffer len =>
    match GetAppendBuffer s len h with
    | (.error e, s1, h1) => (.error e, s1, h1)
    | (.ok _, s1, h1) => (.ok (), s1, h1)
  | .append data n => Append s data n h
  | .getBin =>
    match GetBin s h with
    | (.error e, s1, h1) => (.error e, s1, h1)
    | (.ok _, s1, h1) => (.ok (), s1, h1)

/-- Issuing operations in order, stopping at the first exception. -/
def runOps : SnappyNifSink → List SinkOp → Heap → Res Unit
  | s, [], h => (.ok (), s, h)
  | s, op :: rest, h =>
    match runOp s op h with
    | (.error e, s1, h1) => (.error e, s1, h1)
    | (.ok (), s1, h1) => runOps s1 rest h1

/-- One write of a push-style writer: `copy data` is `Append(p, n)` for `n` bytes `data` in
memory of the writer; `inplace len data` is `p = GetAppendBuffer(len, scratch)`, the bytes
`data` stored through `p`, then `Append(p, n)` for the `n` bytes of `data`. -/
inductive Write where
  | copy (data : List Byte)
  | inplace (len : Nat) (data : List Byte)
  deriving DecidableEq, Repr

/-- The bytes a write commits. -/
def Write.bytes : Write → List Byte
  | .copy data => data
  | .inplace _ data => data

/-- The length a write asks the sink to make room for. -/
def Write.request : Write → Nat
  | .copy data => data.length
  | .inplace len _ => len

/-- Performing one write on the sink. -/
def runWrite (s : SnappyNifSink) (w : Write) (h : Heap) : Res Unit :=
  match w with
  | .copy data => Append s (CharPtr.ext data) data.length h
  | .inplace len data =>
    match GetAppendBuffer s len h with
    | (.error e, s1, h1) => (.error e, s1, h1)
    | (.ok p, s1, h1) => Append (store s1 p data) p data.length h1

/-- Performing writes in order, stopping at the first exception. -/
def runWrites : SnappyNifSink → List Write → Heap → Res Unit
  | s, [], h => (.ok (), s, h)
  | s, w :: rest, h =>
    match runWrite s w h with
    | (.error e, s1, h1) => (.error e, s1, h1)
    | (.ok (), s1, h1) => runWrites s1 rest h1

/-- The compression engine, which is outside the repository.  `Compress input` is what
`snappy::Compress(&source, &sink)` does to the sink: the writes it issues and, after them,
the exception it throws if it throws one.  `GetUncompressedLength` returns the length
(`none`: it returns false).  `RawUncompress` returns its boolean and the bytes it stored
from the start of the output pointer.  The last two may throw as well. -/
structure Engine where
  Compress : List Byte → List Write × Option Exn
  GetUncompressedLength : List Byte → Except Exn (Option Nat)
  RawUncompress : List Byte → Except Exn (Bool × List Byte)

/-- `snappy::Compress(&source, &sink)` running against the sink. -/
def Engine.runCompress (eng : Engine) (input : List Byte) (s : SnappyNifSink) (h : Heap) :
    Res Unit :=
  match runWrites s (eng.Compress input).1 h with
  | (.error e, s1, h1) => (.error e, s1, h1)
  | (.ok (), s1, h1) =>
    match (eng.Compress input).2 with
    | some e => (.error e, s1, h1)
    | none => (.ok (), s1, h1)

/-- The handlers of `snappy_compress`: `catch(std::bad_alloc)` and `catch(...)`. -/
def compress_catch : Exn → Term
  | .bad_alloc => Term.error Reason.insufficient_memory
  | .other => Term.error Reason.unknown

/-- `snappy_compress`.  The sink is destroyed when the `try` block is left, by `return` or
by an exception thrown after its construction. -/
def snappy_compress (eng : Engine) (arg : Arg) (h : Heap) : Term × Heap :=
  match arg with
  | .other => (Term.badarg, h)
  | .iolist input =>
    match SnappyNifSink.new h with
    | (.error e, h1) => (compress_catch e, h1)
    | (.ok sink, h1) =>
      match eng.runCompress input sink h1 with
      | (.error e, s2, h2) => (compress_catch e, s2.destroy h2)
      | (.ok (), s2, h2) =>
        match GetBin s2 h2 with
        | (.error e, s3, h3) => (compress_catch e, s3.destroy h3)
        | (.ok b, s3, h3) =>
          let r := enif_make_binary b h3
          (Term.ok r.1, s3.destroy r.2)

/-- `snappy_decompress`. -/
def snappy_decompress (eng : Engine) (arg : Arg) (h : Heap) : Term × Heap :=
  match arg with
  | .other => (Term.badarg, h)
  | .iolist bin =>
    match eng.GetUncompressedLength bin with
    | .error _ => (Term.error Reason.unknown, h)
    | .ok none => (Term.error Reason.data_not_compressed, h)
    | .ok (some len) =>
      match enif_alloc_binary len h with
      | (none, h1) => (Term.error Reason.insufficient_memory, h1)
      | (some ret, h1) =>
        match eng.RawUncompress bin with
        | .error _ => (Term.error Reason.unknown, h1)
        | .ok (false, _) => (Term.error Reason.corrupted_data, h1)
        | .ok (true, out) =>
          enif_make_binary { ret with data := writeAt ret.data 0 out } h1
            |> fun r => (Term.ok r.1, r.2)

/-- No coming allocation request fails. -/
def Heap.noFail (h : Heap) : Prop := ∀ b ∈ h.oracle, b = true

instance (h : Heap) : Decidable h.noFail :=
  inferInstanceAs (Decidable (∀ b ∈ h.oracle, b = true))

/-- The next allocation request succeeds. -/
def Heap.nextOk (h : Heap) : Prop := h.oracle.head? ≠ some false

instance (h : Heap) : Decidable h.nextOk :=
  inferInstanceAs (Decidable (h.oracle.head? ≠ some false))

/-- The heap after one successful `enif_realloc_binary`. -/
def Heap.afterRealloc (h : Heap) : Heap :=
  { h with oracle := h.oracle.tail, nrealloc := h.nrealloc + 1 }

/-- The heap after one successful `enif_alloc_binary`. -/
def Heap.afterAlloc (h : Heap) : Heap :=
  { h with oracle := h.oracle.tail, next := h.next + 1, live := h.next :: h.live }

/-- The amount `EnsureSize` adds for a request of `n` bytes, as a natural number. -/
def growth (n : Nat) : Nat := max (n * 4) 8192

/-- The `size_t` computations of `EnsureSize s n` do not wrap: `length + n`, `n * 4` and
`bin.size + max(n * 4, 8192)` are below `2 ^ 64`. -/
def NoWrap (s : SnappyNifSink) (n : Nat) : Prop :=
  s.length + n < SIZE_T ∧ n * 4 < SIZE_T ∧ s.bin.size + growth n < SIZE_T

instance (s : SnappyNifSink) (n : Nat) : Decidable (NoWrap s n) :=
  inferInstanceAs (Decidable (_ ∧ _ ∧ _))

/-- A heap with nothing allocated and no failing request. -/
def Heap.empty : Heap := { oracle := [], next := 0, live := [], nrealloc := 0, nfailed := 0 }

/-- The sink right after its construction on the heap `h`. -/
def freshSink (h : Heap) : SnappyNifSink := { bin := { data := [], ref := h.next }, length := 0 }

/-- An operation stays inside what the sink's interface allows in the state `s`: a request
for room, or a copying `Append`, whose `size_t` computations do not wrap; an in-place
`Append` (its pointer is `bin.data + length`) that commits no more bytes than the binary has
after `length`. -/
def SinkOp.fits (s : SnappyNifSink) : SinkOp → Prop
  | .getAppendBuffer len => NoWrap s len
  | .append data n =>
    if data = CharPtr.slot s.length then s.length + n ≤ s.bin.size else NoWrap s n
  | .getBin => True

instance (s : SnappyNifSink) : (op : SinkOp) → Decidable (op.fits s)
  | .getAppendBuffer len => inferInstanceAs (Decidable (NoWrap s len))
  | .append data n =>
    inferInstanceAs
      (Decidable (if data = CharPtr.slot s.length then s.length + n ≤ s.bin.size else NoWrap s n))
  | .getBin => isTrue trivial

/-- Every operation of the sequence fits in the state it is issued in (operations after a
thrown exception are not issued). -/
def fitsRun : SnappyNifSink → List SinkOp → Heap → Prop
  | _, [], _ => True
  | s, op :: rest, h =>
    op.fits s ∧
      ((runOp s op h).1 = .ok () → fitsRun (runOp s op h).2.1 rest (runOp s op h).2.2)

instance fitsRun.decide : (s : SnappyNifSink) → (ops : List SinkOp) → (h : Heap) →
    Decidable (fitsRun s ops h)
  | _, [], _ => isTrue trivial
  | s, op :: rest, h =>
    have := fitsRun.decide (runOp s op h).2.1 rest (runOp s op h).2.2
    inferInstanceAs (Decidable (op.fits s ∧
      ((runOp s op h).1 = .ok () → fitsRun (runOp s op h).2.1 rest (runOp s op h).2.2)))

/-- The most a sequence of writes can make the binary grow: `max(request * 4, 8192)` for
each write. -/
def roomBound (ws : List Write) : Nat := (ws.map (fun w => growth w.request)).sum

/-- The quotient `a / b` rounded up. -/
def ceilDiv (a b : Nat) : Nat := (a + b - 1) / b

/-- Applying `Append(data, n)` once per chunk, each chunk in memory outside the sink. -/
def appendAll (s : SnappyNifSink) (chunks : List (List Byte)) (h : Heap) : Res Unit :=
  runWrites s (chunks.map Write.copy) h

/-- The number of `EnsureSize` calls that resize the binary while the chunks are appended to
a fresh sink, no allocation failing. -/
def resizeCount (chunks : List (List Byte)) : Nat :=
  (appendAll (freshSink Heap.empty) chunks Heap.empty).2.2.nrealloc

/-- How a sink method relates the state before and after, whatever the sizes: it returns
with no allocation request having failed, or it throws `std::bad_alloc` after exactly one
failed request; the allocation behind the binary and the live allocations stay the same;
and it returns when no request fails. -/
def Tracks {α : Type} (s : SnappyNifSink) (h : Heap) (r : Res α) : Prop :=
  (((∃ a, r.1 = .ok a) ∧ r.2.2.nfailed = h.nfailed) ∨
    (r.1 = .error .bad_alloc ∧ r.2.2.nfailed = h.nfailed + 1)) ∧
  r.2.1.bin.ref = s.bin.ref ∧ r.2.2.live = h.live ∧
  (h.noFail → (∃ a, r.1 = .ok a) ∧ r.2.2.noFail)

/-- An engine whose `RawUncompress` rejects every payload after `GetUncompressedLength`
reported 4 bytes. -/
def rejectingEngine : Engine where
  Compress := fun _ => ([], none)
  GetUncompressedLength := fun _ => .ok (some 4)
  RawUncompress := fun _ => .ok (false, [])

/-- An engine that stores its input as it is, in one copying `Append`. -/
def storingEngine : Engine where
  Compress := fun input => ([Write.copy input], none)
  GetUncompressedLength := fun z => .ok (some z.length)
  RawUncompress := fun z => .ok (true, z)

/-- The bytes `snappy::Compress` emits for `input`. -/
def Engine.emitted (eng : Engine) (input : List Byte) : List Byte :=
  ((eng.Compress input).1.map Write.bytes).flatten

/-- The contract the facade needs from the engine on the input `X`: `Compress` does not
throw, commits in place no more than it asked room for, asks for room in amounts whose
growth `max(request * 4, 8192)` sums to less than `2 ^ 64`, and on the bytes `Z` it emits
`GetUncompressedLength(Z)` is the length of `X` and `RawUncompress(Z)` stores exactly `X`. -/
structure EngineContract (eng : Engine) (X : List Byte) : Prop where
  noThrow : (eng.Compress X).2 = none
  protocol : ∀ w ∈ (eng.Compress X).1, w.bytes.length ≤ w.request
  bounded : roomBound (eng.Compress X).1 < SIZE_T
  lengthOf : eng.GetUncompressedLength (eng.emitted X) = .ok (some X.length)
  uncompress : eng.RawUncompress (eng.emitted X) = .ok (true, X)

/-- An engine that asks for `2 ^ 62` bytes of room and then stores 8193 bytes in place; it
recognises exactly the byte strings of 8193 bytes, as the compressed form of the empty
input. -/
def overrunningEngine : Engine where
  Compress := fun _ => ([Write.inplace (2 ^ 62) (List.replicate 8193 0)], none)
  GetUncompressedLength := fun z => if z.length = 8193 then .ok (some 0) else .ok none
  RawUncompress := fun z => if z.length = 8193 then .ok (true, []) else .ok (false, [])

end SnappyNif

namespace SnappyNif

/-! ## The allocator -/

theorem enif_realloc_binary_ok (bin : ErlNifBinary) (size : Nat) (h : Heap) (hk : h.nextOk) :
    enif_realloc_binary bin size h =
      (some { bin with data := bin.data.take size ++ List.replicate (size - bin.data.length) 0 },
       h.afterRealloc) := by
  unfold enif_realloc_binary Heap.afterRealloc
  unfold Heap.nextOk at hk
  rcases ho : h.oracle with _ | ⟨b, rest⟩
  · rfl
  · cases b
    · simp [ho] at hk
    · rfl

theorem enif_realloc_binary_fail (bin : ErlNifBinary) (size : Nat) (h : Heap) (hk : ¬ h.nextOk) :
    enif_realloc_binary bin size h = (none, { h with oracle := h.oracle.tail, nfailed := h.nfailed + 1 }) := by
  unfold enif_realloc_binary
  unfold Heap.nextOk at hk
  rcases ho : h.oracle with _ | ⟨b, rest⟩
  · simp [ho] at hk
  · cases b
    · rfl
    · simp [ho] at hk

theorem enif_alloc_binary_ok (size : Nat) (h : Heap) (hk : h.nextOk) :
    enif_alloc_binary size h =
      (some { data := List.replicate size 0, ref := h.next },
       { h with oracle := h.oracle.tail, next := h.next + 1, live := h.next :: h.live }) := by
  unfold enif_alloc_binary
  unfold Heap.nextOk at hk
  rcases ho : h.oracle with _ | ⟨b, rest⟩
  · rfl
  · cases b
    · simp [ho] at hk
    · rfl

theorem enif_alloc_binary_fail (size : Nat) (h : Heap) (hk : ¬ h.nextOk) :
    enif_alloc_binary size h = (none, { h with oracle := h.oracle.tail, nfailed := h.nfailed + 1 }) := by
  unfold enif_alloc_binary
  unfold Heap.nextOk at hk
  rcases ho : h.oracle with _ | ⟨b, rest⟩
  · simp [ho] at hk
  · cases b
    · rfl
    · simp [ho] at hk

theorem Heap.noFail_nextOk {h : Heap} (hn : h.noFail) : h.nextOk := by
  unfold Heap.nextOk
  unfold Heap.noFail at hn
  rcases ho : h.oracle with _ | ⟨b, rest⟩
  · simp
  · have := hn b (by simp [ho])
    simp [this]

theorem Heap.noFail_afterRealloc {h : Heap} (hn : h.noFail) : h.afterRealloc.noFail := by
  unfold Heap.noFail at *
  intro b hb
  exact hn b (List.mem_of_mem_tail hb)

theorem Heap.noFail_afterAlloc {h : Heap} (hn : h.noFail) : h.afterAlloc.noFail := by
  intro b hb
  exact hn b (List.mem_of_mem_tail hb)

/-! ## `EnsureSize` -/

theorem EnsureSize_enough (s : SnappyNifSink) (n : Nat) (h : Heap)
    (hw : s.length + n < SIZE_T) (hle : s.length + n ≤ s.bin.size) :
    EnsureSize s n h = (.ok (), s, h) := by
  unfold EnsureSize
  rw [Nat.mod_eq_of_lt hw]
  simp [Nat.not_lt.mpr hle]

theorem EnsureSize_grow (s : SnappyNifSink) (n : Nat) (h : Heap) (hw : NoWrap s n)
    (hgt : s.length + n > s.bin.size) (hk : h.nextOk) :
    EnsureSize s n h =
      (.ok (), { s with bin := { s.bin with data := s.bin.data ++ List.replicate (growth n) 0 } },
       h.afterRealloc) := by
  obtain ⟨h1, h2, h3⟩ := hw
  unfold EnsureSize
  rw [Nat.mod_eq_of_lt h1, Nat.mod_eq_of_lt h2]
  have hg : (if n * 4 < 8192 then 8192 else n * 4) = growth n := by
    unfold growth; split <;> omega
  simp only [hgt, if_true, hg]
  rw [Nat.mod_eq_of_lt h3, enif_realloc_binary_ok _ _ _ hk]
  have : List.take (s.bin.size + growth n) s.bin.data = s.bin.data := by
    apply List.take_of_length_le; unfold ErlNifBinary.size; omega
  simp [this, ErlNifBinary.size]

theorem EnsureSize_fail (s : SnappyNifSink) (n : Nat) (h : Heap) (hw : NoWrap s n)
    (hgt : s.length + n > s.bin.size) (hk : ¬ h.nextOk) :
    EnsureSize s n h = (.error .bad_alloc, s, { h with oracle := h.oracle.tail, nfailed := h.nfailed + 1 }) := by
  obtain ⟨h1, h2, h3⟩ := hw
  unfold EnsureSize
  rw [Nat.mod_eq_of_lt h1]
  simp only [hgt, if_true]
  rw [enif_realloc_binary_fail _ _ _ hk]

/-- C4 (amended): the growth rule of `EnsureSize` when its `size_t` computations do not wrap.
When `length + n <= bin.size` nothing happens at all.  When `length + n > bin.size` the
binary is reallocated once; if that succeeds the new size is the old size plus
`max (n * 4) 8192`, and `length` and the bytes that were in the binary are as before; if it
fails, `std::bad_alloc` is thrown and the sink is as before. -/
theorem EnsureSize_growth_rule (s : SnappyNifSink) (n : Nat) (h : Heap) (hw : NoWrap s n) :
    (s.length + n ≤ s.bin.size → EnsureSize s n h = (.ok (), s, h)) ∧
    (s.length + n > s.bin.size → h.nextOk →
      (EnsureSize s n h).1 = .ok () ∧
      (EnsureSize s n h).2.1.bin.size = s.bin.size + max (n * 4) 8192 ∧
      (EnsureSize s n h).2.1.length = s.length ∧
      (EnsureSize s n h).2.1.bin.data.take s.bin.size = s.bin.data ∧
      (EnsureSize s n h).2.2.nrealloc = h.nrealloc + 1) ∧
    (s.length + n > s.bin.size → ¬ h.nextOk →
      (EnsureSize s n h).1 = .error .bad_alloc ∧
      (EnsureSize s n h).2.1 = s ∧
      (EnsureSize s n h).2.2.nrealloc = h.nrealloc) := by
  refine ⟨fun hle => EnsureSize_enough s n h hw.1 hle, fun hgt hk => ?_, fun hgt hk => ?_⟩
  · rw [EnsureSize_grow s n h hw hgt hk]
    simp [ErlNifBinary.size, growth, Heap.afterRealloc]
  · rw [EnsureSize_fail s n h hw hgt hk]
    simp

/-- C4, an instance: a request of 10 bytes on a fresh sink allocates 8192 bytes. -/
theorem EnsureSize_growth_rule_witness :
    NoWrap (freshSink Heap.empty) 10 ∧
    (EnsureSize (freshSink Heap.empty) 10 Heap.empty).2.1.bin.size
      = (freshSink Heap.empty).bin.size + max (10 * 4) 8192 :=
  ⟨by decide,
   ((EnsureSize_growth_rule (freshSink Heap.empty) 10 Heap.empty (by decide)).2.1
      (by decide) (by decide)).2.1⟩

/-- The size after `EnsureSize` when `append_length * 4` wraps below 8192. -/
theorem EnsureSize_small_product (s : SnappyNifSink) (n : Nat) (h : Heap)
    (hgt : (s.length + n) % SIZE_T > s.bin.size) (hsz : n * 4 % SIZE_T < 8192)
    (hk : h.nextOk) :
    (EnsureSize s n h).1 = .ok () ∧ (EnsureSize s n h).2.1.length = s.length ∧
    (EnsureSize s n h).2.1.bin.size = (s.bin.size + 8192) % SIZE_T := by
  unfold EnsureSize
  simp only [hgt, hsz, if_true]
  rw [enif_realloc_binary_ok _ _ _ hk]
  simp only [ErlNifBinary.size, List.length_append, List.length_take, List.length_replicate,
    true_and]
  omega

/-- C4 as stated fails: for `append_length = 2 ^ 62` the product `append_length * 4` wraps
to 0, so a fresh sink is resized to 8192 bytes and not to `0 + max (2 ^ 62 * 4) 8192`. -/
theorem EnsureSize_growth_rule_wraps :
    (freshSink Heap.empty).length + 2 ^ 62 > (freshSink Heap.empty).bin.size ∧
    (EnsureSize (freshSink Heap.empty) (2 ^ 62) Heap.empty).1 = .ok () ∧
    (EnsureSize (freshSink Heap.empty) (2 ^ 62) Heap.empty).2.1.bin.size = 8192 ∧
    (EnsureSize (freshSink Heap.empty) (2 ^ 62) Heap.empty).2.1.bin.size
      ≠ (freshSink Heap.empty).bin.size + max (2 ^ 62 * 4) 8192 := by
  obtain ⟨h1, -, h3⟩ := EnsureSize_small_product (freshSink Heap.empty) (2 ^ 62) Heap.empty
    (by decide) (by decide) (by decide)
  have h4 : ((freshSink Heap.empty).bin.size + 8192) % SIZE_T = 8192 := by decide
  rw [h4] at h3
  refine ⟨by decide, h1, h3, ?_⟩
  rw [h3]
  decide

/-! ## `GetAppendBuffer` -/

theorem growth_ge (n : Nat) : n ≤ growth n ∧ 8192 ≤ growth n ∧ n * 4 ≤ growth n := by
  unfold growth; omega

/-- C5 (amended): the postcondition of `GetAppendBuffer` when the `size_t` computations of
`EnsureSize` do not wrap.  On a sink with `bin.size >= length`, the call succeeds whenever
the reallocation (if one is needed) succeeds, and whenever it succeeds the pointer returned
is `bin.data + length`, `length` is not advanced, the bytes before `length` are as before,
and `length + len <= bin.size` afterwards. -/
theorem GetAppendBuffer_post (s : SnappyNifSink) (len : Nat) (h : Heap)
    (hinv : s.length ≤ s.bin.size) (hw : NoWrap s len) :
    (h.nextOk → (GetAppendBuffer s len h).1 = .ok (CharPtr.slot s.length)) ∧
    (∀ p, (GetAppendBuffer s len h).1 = .ok p →
      p = CharPtr.slot s.length ∧
      (GetAppendBuffer s len h).2.1.length = s.length ∧
      (GetAppendBuffer s len h).2.1.bin.data.take s.length = s.bin.data.take s.length ∧
      (GetAppendBuffer s len h).2.1.length + len ≤ (GetAppendBuffer s len h).2.1.bin.size ∧
      (GetAppendBuffer s len h).2.1.bin.size - (GetAppendBuffer s len h).2.1.length ≥ len) := by
  by_cases hle : s.length + len ≤ s.bin.size
  · have e : GetAppendBuffer s len h = (.ok (CharPtr.slot s.length), s, h) := by
      unfold GetAppendBuffer; rw [EnsureSize_enough s len h hw.1 hle]
    rw [e]
    refine ⟨fun _ => rfl, fun p hp => ?_⟩
    simp only [Except.ok.injEq] at hp
    exact ⟨hp.symm, rfl, rfl, hle, Nat.le_sub_of_add_le (by rw [Nat.add_comm]; exact hle)⟩
  · have hgt : s.length + len > s.bin.size := by omega
    by_cases hk : h.nextOk
    · have e : GetAppendBuffer s len h = (.ok (CharPtr.slot s.length),
          { s with bin := { s.bin with data := s.bin.data ++ List.replicate (growth len) 0 } },
          h.afterRealloc) := by
        unfold GetAppendBuffer; rw [EnsureSize_grow s len h hw hgt hk]
      rw [e]
      have hg := growth_ge len
      refine ⟨fun _ => rfl, fun p hp => ?_⟩
      simp only [Except.ok.injEq] at hp
      have hsz : s.length ≤ s.bin.data.length := hinv
      refine ⟨hp.symm, rfl, ?_, ?_, ?_⟩
      · simp [List.take_append_of_le_length hsz]
      · simp only [ErlNifBinary.size, List.length_append, List.length_replicate]; omega
      · simp only [ErlNifBinary.size, List.length_append, List.length_replicate]; omega
    · have e : GetAppendBuffer s len h =
          (.error .bad_alloc, s, { h with oracle := h.oracle.tail, nfailed := h.nfailed + 1 }) := by
        unfold GetAppendBuffer; rw [EnsureSize_fail s len h hw hgt hk]
      rw [e]
      exact ⟨fun hk2 => absurd hk2 hk, fun p hp => by simp at hp⟩

/-- C5, an instance: asking a fresh sink for 100 bytes returns the pointer at offset 0. -/
theorem GetAppendBuffer_post_witness :
    (freshSink Heap.empty).length ≤ (freshSink Heap.empty).bin.size ∧
    NoWrap (freshSink Heap.empty) 100 ∧
    (GetAppendBuffer (freshSink Heap.empty) 100 Heap.empty).1 = .ok (CharPtr.slot 0) :=
  ⟨by decide, by decide,
   (GetAppendBuffer_post (freshSink Heap.empty) 100 Heap.empty (by decide) (by decide)).1
     (by decide)⟩

/-- C5 as stated fails: `GetAppendBuffer(2 ^ 62)` on a fresh sink succeeds and leaves 8192
bytes of room, not `2 ^ 62`. -/
theorem GetAppendBuffer_post_wraps :
    (freshSink Heap.empty).bin.size ≥ (freshSink Heap.empty).length ∧
    (GetAppendBuffer (freshSink Heap.empty) (2 ^ 62) Heap.empty).1 = .ok (CharPtr.slot 0) ∧
    ¬ ((GetAppendBuffer (freshSink Heap.empty) (2 ^ 62) Heap.empty).2.1.bin.size
        - (GetAppendBuffer (freshSink Heap.empty) (2 ^ 62) Heap.empty).2.1.length ≥ 2 ^ 62) := by
  obtain ⟨h1, h2, h3⟩ := EnsureSize_small_product (freshSink Heap.empty) (2 ^ 62) Heap.empty
    (by decide) (by decide) (by decide)
  have h4 : ((freshSink Heap.empty).bin.size + 8192) % SIZE_T = 8192 := by decide
  rw [h4] at h3
  have e : GetAppendBuffer (freshSink Heap.empty) (2 ^ 62) Heap.empty =
      (.ok (CharPtr.slot (EnsureSize (freshSink Heap.empty) (2 ^ 62) Heap.empty).2.1.length),
       (EnsureSize (freshSink Heap.empty) (2 ^ 62) Heap.empty).2.1,
       (EnsureSize (freshSink Heap.empty) (2 ^ 62) Heap.empty).2.2) := by
    unfold GetAppendBuffer
    rcases hr : EnsureSize (freshSink Heap.empty) (2 ^ 62) Heap.empty with ⟨r, s1, h5⟩
    rw [hr] at h1
    cases r with
    | error e => simp at h1
    | ok u => rfl
  rw [e]
  refine ⟨by decide, ?_, ?_⟩
  · simp only [h2]; rfl
  · simp only [h2, h3]; decide

/-! ## The invariant `length <= bin.size` -/

theorem writeAt_length (buf : List Byte) (off : Nat) (bytes : List Byte) :
    (writeAt buf off bytes).length = buf.length := by
  unfold writeAt
  simp only [List.length_take, List.length_append, List.length_drop]
  omega

theorem SnappyNifSink.new_ok (h : Heap) (hk : h.nextOk) :
    SnappyNifSink.new h =
      (.ok (freshSink h),
       { h with oracle := h.oracle.tail, next := h.next + 1, live := h.next :: h.live }) := by
  unfold SnappyNifSink.new
  rw [enif_alloc_binary_ok 0 h hk]
  rfl

/-- What `EnsureSize` guarantees when it returns, on a sink with `length <= bin.size`. -/
theorem EnsureSize_post (s : SnappyNifSink) (n : Nat) (h : Heap)
    (hinv : s.length ≤ s.bin.size) (hw : NoWrap s n) :
    (h.nextOk → (EnsureSize s n h).1 = .ok ()) ∧
    ((EnsureSize s n h).1 = .ok () →
      (EnsureSize s n h).2.1.length = s.length ∧
      (EnsureSize s n h).2.1.bin.ref = s.bin.ref ∧
      (EnsureSize s n h).2.1.bin.data.take s.length = s.bin.data.take s.length ∧
      s.length + n ≤ (EnsureSize s n h).2.1.bin.size ∧
      (EnsureSize s n h).2.1.bin.size ≤ s.bin.size + growth n) ∧
    (h.noFail → (EnsureSize s n h).2.2.noFail) := by
  by_cases hle : s.length + n ≤ s.bin.size
  · rw [EnsureSize_enough s n h hw.1 hle]
    exact ⟨fun _ => rfl, fun _ => ⟨rfl, rfl, rfl, hle, Nat.le_add_right _ _⟩, fun hn => hn⟩
  · have hgt : s.length + n > s.bin.size := by omega
    by_cases hk : h.nextOk
    · rw [EnsureSize_grow s n h hw hgt hk]
      have hg := growth_ge n
      have hsz : s.length ≤ s.bin.data.length := hinv
      refine ⟨fun _ => rfl, fun _ => ⟨rfl, rfl, ?_, ?_, ?_⟩,
        fun hn => Heap.noFail_afterRealloc hn⟩
      · simp [List.take_append_of_le_length hsz]
      · simp only [ErlNifBinary.size, List.length_append, List.length_replicate]; omega
      · simp only [ErlNifBinary.size, List.length_append, List.length_replicate]; omega
    · rw [EnsureSize_fail s n h hw hgt hk]
      refine ⟨fun hk2 => absurd hk2 hk, fun hp => by simp at hp, fun hn => ?_⟩
      exact absurd (Heap.noFail_nextOk hn) hk

theorem GetBin_post (s : SnappyNifSink) (h : Heap) (hinv : s.length ≤ s.bin.size) :
    (h.nextOk → (GetBin s h).1 = .ok (GetBin s h).2.1.bin) ∧
    (∀ b, (GetBin s h).1 = .ok b →
      b = (GetBin s h).2.1.bin ∧ b.data = s.bin.data.take s.length ∧ b.ref = s.bin.ref ∧
      (GetBin s h).2.1.length = s.length) ∧
    (h.noFail → (GetBin s h).2.2.noFail) := by
  have hsz : s.length ≤ s.bin.data.length := hinv
  unfold GetBin
  by_cases hgt : s.bin.size > s.length
  · simp only [hgt, if_true]
    by_cases hk : h.nextOk
    · rw [enif_realloc_binary_ok _ _ _ hk]
      have h0 : s.length - s.bin.data.length = 0 := by omega
      refine ⟨fun _ => rfl, fun b hb => ?_, fun hn => Heap.noFail_afterRealloc hn⟩
      simp only [Except.ok.injEq] at hb
      subst hb
      simp [h0]
    · rw [enif_realloc_binary_fail _ _ _ hk]
      refine ⟨fun hk2 => absurd hk2 hk, fun b hb => by simp at hb, fun hn => ?_⟩
      exact absurd (Heap.noFail_nextOk hn) hk
  · simp only [hgt, if_false]
    have he : s.bin.data.length = s.length := by
      unfold ErlNifBinary.size at hgt; omega
    refine ⟨fun _ => by first | rfl | trivial, fun b hb => ?_, fun hn => hn⟩
    simp only [Except.ok.injEq] at hb
    subst hb
    simp [← he]

theorem writeAt_eq (buf : List Byte) (off : Nat) (bytes : List Byte)
    (hle : off + bytes.length ≤ buf.length) :
    writeAt buf off bytes = buf.take off ++ bytes ++ buf.drop (off + bytes.length) := by
  unfold writeAt
  apply List.take_of_length_le
  simp only [List.length_take, List.length_append, List.length_drop]
  omega

theorem writeAt_take (buf : List Byte) (off : Nat) (bytes : List Byte)
    (hle : off + bytes.length ≤ buf.length) :
    (writeAt buf off bytes).take (off + bytes.length) = buf.take off ++ bytes := by
  rw [writeAt_eq buf off bytes hle, List.append_assoc]
  have hl : (buf.take off ++ bytes).length = off + bytes.length := by
    simp only [List.length_take, List.length_append]; omega
  rw [← List.append_assoc]
  exact List.take_left' hl

/-- The copying path of `Append` on a sink with `length <= bin.size`. -/
theorem Append_copy_post (s : SnappyNifSink) (data : CharPtr) (n : Nat) (h : Heap)
    (hne : data ≠ CharPtr.slot s.length) (hinv : s.length ≤ s.bin.size) (hw : NoWrap s n) :
    (h.nextOk → (Append s data n h).1 = .ok ()) ∧
    ((Append s data n h).1 = .ok () →
      (Append s data n h).2.1.length = s.length + n ∧
      (Append s data n h).2.1.length ≤ (Append s data n h).2.1.bin.size ∧
      (Append s data n h).2.1.bin.ref = s.bin.ref ∧
      (Append s data n h).2.1.bin.size ≤ s.bin.size + growth n ∧
      (Append s data n h).2.1.bin.data =
        writeAt (EnsureSize s n h).2.1.bin.data s.length
          (readBytes (EnsureSize s n h).2.1.bin data n)) ∧
    (h.noFail → (Append s data n h).2.2.noFail) := by
  have post := EnsureSize_post s n h hinv hw
  unfold Append
  simp only [hne, ne_eq, not_false_eq_true, if_true]
  rcases hr : EnsureSize s n h with ⟨r, s1, h1⟩
  rw [hr] at post
  cases r with
  | error e =>
    refine ⟨fun hk => ?_, fun hp => by simp at hp, fun hn => post.2.2 hn⟩
    have := post.1 hk
    simp at this
  | ok u =>
    obtain ⟨-, hpost, hnf⟩ := post
    obtain ⟨hl, href, -, hroom, hbound⟩ := hpost rfl
    simp only at hl href hroom hbound
    refine ⟨fun _ => rfl, fun _ => ⟨?_, ?_, href, ?_, ?_⟩, fun hn => hnf hn⟩
    · simp only [hl]; exact Nat.mod_eq_of_lt hw.1
    · simp only [hl, ErlNifBinary.size, writeAt_length]
      rw [Nat.mod_eq_of_lt hw.1]; exact hroom
    · simp only [ErlNifBinary.size, writeAt_length]; exact hbound
    · simp only [hl]

/-- The in-place path of `Append`: only `length` moves. -/
theorem Append_inplace (s : SnappyNifSink) (n : Nat) (h : Heap) :
    Append s (CharPtr.slot s.length) n h =
      (.ok (), { s with length := (s.length + n) % SIZE_T }, h) := by
  unfold Append
  simp

theorem GetAppendBuffer_eq (s : SnappyNifSink) (len : Nat) (h : Heap) :
    GetAppendBuffer s len h =
      ((EnsureSize s len h).1.map (fun _ => CharPtr.slot (EnsureSize s len h).2.1.length),
       (EnsureSize s len h).2.1, (EnsureSize s len h).2.2) := by
  unfold GetAppendBuffer
  rcases EnsureSize s len h with ⟨r, s1, h1⟩
  cases r <;> rfl

theorem runOp_getAppendBuffer (s : SnappyNifSink) (len : Nat) (h : Heap) :
    runOp s (.getAppendBuffer len) h =
      ((EnsureSize s len h).1, (EnsureSize s len h).2.1, (EnsureSize s len h).2.2) := by
  simp only [runOp, GetAppendBuffer_eq]
  rcases EnsureSize s len h with ⟨r, s1, h1⟩
  cases r <;> rfl

theorem runOp_getBin (s : SnappyNifSink) (h : Heap) :
    runOp s .getBin h =
      ((GetBin s h).1.map (fun _ => ()), (GetBin s h).2.1, (GetBin s h).2.2) := by
  simp only [runOp]
  rcases GetBin s h with ⟨r, s1, h1⟩
  cases r <;> rfl

/-- One fitting operation keeps `length <= bin.size`, and succeeds when no allocation
fails. -/
theorem runOp_inv (s : SnappyNifSink) (op : SinkOp) (h : Heap)
    (hinv : s.length ≤ s.bin.size) (hf : op.fits s) :
    ((runOp s op h).1 = .ok () → (runOp s op h).2.1.length ≤ (runOp s op h).2.1.bin.size) ∧
    (h.noFail → (runOp s op h).1 = .ok () ∧ (runOp s op h).2.2.noFail) := by
  cases op with
  | getAppendBuffer len =>
    have hw : NoWrap s len := hf
    have post := EnsureSize_post s len h hinv hw
    rw [runOp_getAppendBuffer]
    refine ⟨fun hp => ?_, fun hn => ⟨post.1 (Heap.noFail_nextOk hn), post.2.2 hn⟩⟩
    obtain ⟨hl, -, -, hroom, -⟩ := post.2.1 hp
    simp only [hl]; omega
  | append data n =>
    have e : runOp s (.append data n) h = Append s data n h := rfl
    rw [e]
    by_cases hd : data = CharPtr.slot s.length
    · have hroom : s.length + n ≤ s.bin.size := by
        unfold SinkOp.fits at hf; simpa [hd] using hf
      subst hd
      rw [Append_inplace]
      refine ⟨fun _ => ?_, fun hn => ⟨rfl, hn⟩⟩
      exact Nat.le_trans (Nat.mod_le _ _) hroom
    · have hw : NoWrap s n := by
        unfold SinkOp.fits at hf; simpa [hd] using hf
      have post := Append_copy_post s data n h hd hinv hw
      exact ⟨fun hp => (post.2.1 hp).2.1,
        fun hn => ⟨post.1 (Heap.noFail_nextOk hn), post.2.2 hn⟩⟩
  | getBin =>
    have post := GetBin_post s h hinv
    rw [runOp_getBin]
    rcases hr : GetBin s h with ⟨r, s1, h1⟩
    rw [hr] at post
    cases r with
    | error e =>
      refine ⟨fun hp => by simp [Except.map] at hp, fun hn => ?_⟩
      have := post.1 (Heap.noFail_nextOk hn)
      simp at this
    | ok b =>
      obtain ⟨-, hpost, hnf⟩ := post
      obtain ⟨hb, hdata, -, hl⟩ := hpost b rfl
      simp only at hb hdata hl
      refine ⟨fun _ => ?_, fun hn => ⟨rfl, hnf hn⟩⟩
      have hsz : s.length ≤ s.bin.data.length := hinv
      simp only [hl, ← hb, ErlNifBinary.size, hdata, List.length_take]
      omega

theorem runOps_inv (ops : List SinkOp) :
    ∀ (s : SnappyNifSink) (h : Heap), s.length ≤ s.bin.size → fitsRun s ops h →
      ((runOps s ops h).1 = .ok () →
        (runOps s ops h).2.1.length ≤ (runOps s ops h).2.1.bin.size) ∧
      (h.noFail → (runOps s ops h).1 = .ok ()) := by
  induction ops with
  | nil => intro s h hinv _; exact ⟨fun _ => hinv, fun _ => rfl⟩
  | cons op rest ih =>
    intro s h hinv hf
    unfold fitsRun at hf
    obtain ⟨hfit, hrest⟩ := hf
    have step := runOp_inv s op h hinv hfit
    unfold runOps
    rcases hr : runOp s op h with ⟨r, s1, h1⟩
    rw [hr] at step hrest
    cases r with
    | error e =>
      refine ⟨fun hp => by simp at hp, fun hn => ?_⟩
      have := (step.2 hn).1
      simp at this
    | ok u =>
      have ih1 := ih s1 h1 (step.1 rfl) (hrest rfl)
      exact ⟨ih1.1, fun hn => ih1.2 (step.2 hn).2⟩

/-- C3 (amended): the sink invariant under the interface's protocol.  For every sequence of
`GetAppendBuffer`, `Append` and `GetBin` calls on a freshly constructed sink in which every
in-place `Append` commits at most `bin.size - length` bytes and no `size_t` computation of
`EnsureSize` wraps, `length <= bin.size` holds after the sequence whenever it succeeds, and
it succeeds when no allocation fails. -/
theorem sink_invariant (h0 h : Heap) (ops : List SinkOp)
    (hf : fitsRun (freshSink h0) ops h) :
    ((runOps (freshSink h0) ops h).1 = .ok () →
      (runOps (freshSink h0) ops h).2.1.length ≤ (runOps (freshSink h0) ops h).2.1.bin.size) ∧
    (h.noFail → (runOps (freshSink h0) ops h).1 = .ok ()) :=
  runOps_inv ops (freshSink h0) h (Nat.le_refl 0) hf

/-- C3, an instance: asking a fresh sink for 10 bytes, committing 10 bytes in place, copying
3 more and finalizing keeps `length <= bin.size`. -/
theorem sink_invariant_witness :
    fitsRun (freshSink Heap.empty)
      [SinkOp.getAppendBuffer 10, SinkOp.append (CharPtr.slot 0) 10,
       SinkOp.append (CharPtr.ext [1, 2, 3]) 3, SinkOp.getBin] Heap.empty ∧
    (Heap.empty.noFail →
      (runOps (freshSink Heap.empty)
        [SinkOp.getAppendBuffer 10, SinkOp.append (CharPtr.slot 0) 10,
         SinkOp.append (CharPtr.ext [1, 2, 3]) 3, SinkOp.getBin] Heap.empty).1 = .ok ()) :=
  ⟨by decide!, (sink_invariant Heap.empty Heap.empty _ (by decide!)).2⟩

/-- C3 as stated fails: an in-place `Append` of one byte on a fresh sink (the pointer is
`bin.data + 0`) succeeds and leaves `length = 1` with `bin.size = 0`. -/
theorem sink_invariant_inplace_overrun :
    (runOps (freshSink Heap.empty) [SinkOp.append (CharPtr.slot 0) 1] Heap.empty).1 = .ok () ∧
    ¬ ((runOps (freshSink Heap.empty) [SinkOp.append (CharPtr.slot 0) 1] Heap.empty).2.1.bin.size
        ≥ (runOps (freshSink Heap.empty) [SinkOp.append (CharPtr.slot 0) 1] Heap.empty).2.1.length) := by
  decide

/-! ## The sink as a byte accumulator -/

theorem noWrap_of_bound (s : SnappyNifSink) (n : Nat) (hinv : s.length ≤ s.bin.size)
    (hb : s.bin.size + growth n < SIZE_T) : NoWrap s n := by
  have hg := growth_ge n
  exact ⟨by omega, by omega, hb⟩

theorem runWrite_inplace_ok (s : SnappyNifSink) (len : Nat) (data : List Byte) (h : Heap)
    (hok : (EnsureSize s len h).1 = .ok ()) :
    runWrite s (.inplace len data) h =
      (.ok (),
       { bin := { (EnsureSize s len h).2.1.bin with
                  data := writeAt (EnsureSize s len h).2.1.bin.data
                    (EnsureSize s len h).2.1.length data },
         length := ((EnsureSize s len h).2.1.length + data.length) % SIZE_T },
       (EnsureSize s len h).2.2) := by
  simp only [runWrite, GetAppendBuffer_eq]
  rcases hr : EnsureSize s len h with ⟨r, s1, h1⟩
  rw [hr] at hok
  cases r with
  | error e => simp at hok
  | ok u =>
    simp only [Except.map, store]
    have := Append_inplace
      { s1 with bin := { s1.bin with data := writeAt s1.bin.data s1.length data } }
      data.length h1
    simpa using this

theorem runWrite_inplace_error (s : SnappyNifSink) (len : Nat) (data : List Byte) (h : Heap)
    (e : Exn) (herr : (EnsureSize s len h).1 = .error e) :
    runWrite s (.inplace len data) h =
      (.error e, (EnsureSize s len h).2.1, (EnsureSize s len h).2.2) := by
  simp only [runWrite, GetAppendBuffer_eq]
  rcases hr : EnsureSize s len h with ⟨r, s1, h1⟩
  rw [hr] at herr
  cases r with
  | error e2 => simp only [Except.error.injEq] at herr; subst herr; rfl
  | ok u => simp at herr

/-- One write appends its bytes after the committed ones. -/
theorem runWrite_post (s : SnappyNifSink) (w : Write) (h : Heap)
    (hinv : s.length ≤ s.bin.size) (hfit : w.bytes.length ≤ w.request)
    (hb : s.bin.size + growth w.request < SIZE_T) :
    (h.nextOk → (runWrite s w h).1 = .ok ()) ∧
    ((runWrite s w h).1 = .ok () →
      (runWrite s w h).2.1.length = s.length + w.bytes.length ∧
      (runWrite s w h).2.1.length ≤ (runWrite s w h).2.1.bin.size ∧
      (runWrite s w h).2.1.bin.ref = s.bin.ref ∧
      (runWrite s w h).2.1.bin.size ≤ s.bin.size + growth w.request ∧
      (runWrite s w h).2.1.bin.data.take (s.length + w.bytes.length)
        = s.bin.data.take s.length ++ w.bytes) ∧
    (h.noFail → (runWrite s w h).2.2.noFail) ∧
    ((runWrite s w h).2.2.nrealloc =
      if s.length + w.request > s.bin.size ∧ h.nextOk then h.nrealloc + 1 else h.nrealloc) := by
  have hw : NoWrap s w.request := noWrap_of_bound s w.request hinv hb
  have post := EnsureSize_post s w.request h hinv hw
  have hcount : (EnsureSize s w.request h).2.2.nrealloc =
      if s.length + w.request > s.bin.size ∧ h.nextOk then h.nrealloc + 1 else h.nrealloc := by
    by_cases hle : s.length + w.request ≤ s.bin.size
    · rw [EnsureSize_enough s _ h hw.1 hle]
      simp [Nat.not_lt.mpr hle]
    · have hgt : s.length + w.request > s.bin.size := by omega
      by_cases hk : h.nextOk
      · rw [EnsureSize_grow s _ h hw hgt hk]; simp [hgt, hk, Heap.afterRealloc]
      · rw [EnsureSize_fail s _ h hw hgt hk]; simp [hk]
  cases w with
  | copy data =>
    simp only [Write.bytes, Write.request] at hfit hb hw post hcount ⊢
    have hne : CharPtr.ext data ≠ CharPtr.slot s.length := by simp
    have ap := Append_copy_post s (CharPtr.ext data) data.length h hne hinv hw
    have e : runWrite s (.copy data) h = Append s (CharPtr.ext data) data.length h := rfl
    have hc : (Append s (CharPtr.ext data) data.length h).2.2
        = (EnsureSize s data.length h).2.2 := by
      unfold Append
      simp only [hne, ne_eq, not_false_eq_true, if_true]
      rcases EnsureSize s data.length h with ⟨r, s1, h1⟩
      cases r <;> rfl
    rw [e]
    refine ⟨ap.1, fun hp => ?_, ap.2.2, ?_⟩
    · obtain ⟨hl, hle, href, hsz, hdata⟩ := ap.2.1 hp
      refine ⟨hl, hle, href, hsz, ?_⟩
      have hE : (EnsureSize s data.length h).1 = .ok () := by
        unfold Append at hp
        simp only [hne, ne_eq, not_false_eq_true, if_true] at hp
        rcases hr : EnsureSize s data.length h with ⟨r, s1, h1⟩
        rw [hr] at hp
        cases r with
        | error e => simp at hp
        | ok u => rfl
      obtain ⟨-, -, htake, hroom, -⟩ := post.2.1 hE
      rw [hdata]
      simp only [readBytes, List.take_length]
      rw [writeAt_take _ _ _ hroom, htake]
    · rw [hc]; exact hcount
  | inplace len data =>
    simp only [Write.bytes, Write.request] at hfit hb hw post hcount ⊢
    rcases hE : (EnsureSize s len h).1 with e | u
    · rw [runWrite_inplace_error s len data h e hE]
      refine ⟨fun hk => ?_, fun hp => by simp at hp, post.2.2, hcount⟩
      have := post.1 hk
      rw [hE] at this
      simp at this
    · rw [runWrite_inplace_ok s len data h hE]
      obtain ⟨hl, href, htake, hroom, hsz⟩ := post.2.1 hE
      have hlt : s.length + data.length < SIZE_T := by have := hw.1; omega
      refine ⟨fun _ => rfl, fun _ => ⟨?_, ?_, href, ?_, ?_⟩, post.2.2, hcount⟩
      · simp only [hl]; exact Nat.mod_eq_of_lt hlt
      · simp only [hl, ErlNifBinary.size, writeAt_length]
        rw [Nat.mod_eq_of_lt hlt]
        have : s.length + len ≤ (EnsureSize s len h).2.1.bin.data.length := hroom
        omega
      · simp only [ErlNifBinary.size, writeAt_length]; exact hsz
      · simp only [hl]
        have hroom2 : s.length + data.length ≤ (EnsureSize s len h).2.1.bin.data.length := by
          have : s.length + len ≤ (EnsureSize s len h).2.1.bin.data.length := hroom
          omega
        rw [writeAt_take _ _ _ hroom2, htake]

theorem runWrites_post (ws : List Write) :
    ∀ (s : SnappyNifSink) (h : Heap), s.length ≤ s.bin.size →
      (∀ w ∈ ws, w.bytes.length ≤ w.request) → s.bin.size + roomBound ws < SIZE_T →
      (h.noFail → (runWrites s ws h).1 = .ok () ∧ (runWrites s ws h).2.2.noFail) ∧
      ((runWrites s ws h).1 = .ok () →
        (runWrites s ws h).2.1.length ≤ (runWrites s ws h).2.1.bin.size ∧
        (runWrites s ws h).2.1.bin.ref = s.bin.ref ∧
        (runWrites s ws h).2.1.length = s.length + (ws.map Write.bytes).flatten.length ∧
        (runWrites s ws h).2.1.bin.data.take (runWrites s ws h).2.1.length
          = s.bin.data.take s.length ++ (ws.map Write.bytes).flatten) := by
  induction ws with
  | nil =>
    intro s h hinv _ _
    exact ⟨fun hn => ⟨rfl, hn⟩, fun _ => ⟨hinv, rfl, by simp [runWrites], by simp [runWrites]⟩⟩
  | cons w rest ih =>
    intro s h hinv hfit hb
    have hb1 : s.bin.size + growth w.request + roomBound rest < SIZE_T := by
      simp only [roomBound, List.map_cons, List.sum_cons] at hb ⊢; omega
    have step := runWrite_post s w h hinv (hfit w (List.mem_cons_self _ _)) (by omega)
    unfold runWrites
    rcases hr : runWrite s w h with ⟨r, s1, h1⟩
    rw [hr] at step
    cases r with
    | error e =>
      refine ⟨fun hn => ?_, fun hp => by simp at hp⟩
      have := step.1 (Heap.noFail_nextOk hn)
      simp at this
    | ok u =>
      obtain ⟨-, hpost, hnf, -⟩ := step
      obtain ⟨hl, hle, href, hsz, hdata⟩ := hpost rfl
      simp only at hl hle href hsz hdata
      have ih1 := ih s1 h1 hle (fun w hw => hfit w (List.mem_cons_of_mem _ hw)) (by omega)
      refine ⟨fun hn => ih1.1 (hnf hn), fun hp => ?_⟩
      obtain ⟨a1, a2, a3, a4⟩ := ih1.2 hp
      refine ⟨a1, a2.trans href, ?_, ?_⟩
      · rw [a3, hl]; simp only [List.map_cons, List.flatten_cons, List.length_append]; omega
      · rw [a4, hl, hdata]; simp only [List.map_cons, List.flatten_cons, List.append_assoc]

/-- C2 (amended): the sink is a faithful byte accumulator.  For every sequence of writes on
a fresh sink, each a copying `Append` or a `GetAppendBuffer(len)` followed by at most `len`
bytes stored in place and committed, such that the growth the requests can cause,
`max(request * 4, 8192)` summed over the writes, is below `2 ^ 64`, and with no allocation
failing: the writes and `GetBin` succeed, and the binary `GetBin` returns holds exactly the
concatenation of the written chunks, so its size is the number of bytes committed. -/
theorem sink_accumulates (h0 h : Heap) (ws : List Write)
    (hfit : ∀ w ∈ ws, w.bytes.length ≤ w.request) (hb : roomBound ws < SIZE_T)
    (hn : h.noFail) :
    (runWrites (freshSink h0) ws h).1 = .ok () ∧
    ∃ b, (GetBin (runWrites (freshSink h0) ws h).2.1 (runWrites (freshSink h0) ws h).2.2).1
          = .ok b ∧
      b.data = (ws.map Write.bytes).flatten ∧
      b.size = ((ws.map Write.bytes).map List.length).sum := by
  have run := runWrites_post ws (freshSink h0) h (Nat.le_refl 0) hfit
    (by simpa [freshSink, ErlNifBinary.size] using hb)
  obtain ⟨hok, hnf⟩ := run.1 hn
  obtain ⟨hinv, -, -, hdata⟩ := run.2 hok
  have gb := GetBin_post (runWrites (freshSink h0) ws h).2.1
    (runWrites (freshSink h0) ws h).2.2 hinv
  have hres := gb.1 (Heap.noFail_nextOk hnf)
  obtain ⟨-, hb2, -, -⟩ := gb.2.1 _ hres
  refine ⟨hok, _, hres, ?_, ?_⟩
  · rw [hb2, hdata]; simp [freshSink]
  · rw [ErlNifBinary.size, hb2, hdata]; simp [freshSink, List.length_flatten]

/-- C2, an instance: a copied chunk and a chunk written in place. -/
theorem sink_accumulates_witness :
    (∀ w ∈ [Write.copy [1, 2], Write.inplace 4 [3]], w.bytes.length ≤ w.request) ∧
    roomBound [Write.copy [1, 2], Write.inplace 4 [3]] < SIZE_T ∧ Heap.empty.noFail ∧
    (runWrites (freshSink Heap.empty) [Write.copy [1, 2], Write.inplace 4 [3]] Heap.empty).1
      = .ok () :=
  ⟨by decide, by decide, by decide,
   (sink_accumulates Heap.empty Heap.empty [Write.copy [1, 2], Write.inplace 4 [3]]
      (by decide) (by decide) (by decide)).1⟩

theorem GetBin_exact (s : SnappyNifSink) (h : Heap) (hle : ¬ s.bin.size > s.length) :
    GetBin s h = (.ok s.bin, s, h) := by
  unfold GetBin
  simp only [hle, if_false]

theorem runWrites_single (s : SnappyNifSink) (w : Write) (h : Heap) :
    runWrites s [w] h = runWrite s w h := by
  simp only [runWrites]
  rcases runWrite s w h with ⟨r, s1, h1⟩
  cases r <;> rfl

/-- When the room after an in-place write's request is smaller than the bytes committed,
`GetBin` returns the binary at the size `EnsureSize` left it. -/
theorem inplace_clipped (s : SnappyNifSink) (len : Nat) (data : List Byte) (h : Heap)
    (hok : (EnsureSize s len h).1 = .ok ())
    (hbig : (EnsureSize s len h).2.1.bin.size
      ≤ ((EnsureSize s len h).2.1.length + data.length) % SIZE_T) :
    (runWrites s [Write.inplace len data] h).1 = .ok () ∧
    ∃ b, (GetBin (runWrites s [Write.inplace len data] h).2.1
            (runWrites s [Write.inplace len data] h).2.2).1 = .ok b ∧
      b.size = (EnsureSize s len h).2.1.bin.size := by
  rw [runWrites_single, runWrite_inplace_ok _ _ _ _ hok]
  refine ⟨rfl, ?_⟩
  rw [GetBin_exact]
  · exact ⟨_, rfl, writeAt_length _ _ _⟩
  · show ¬ ((writeAt _ _ _).length > _)
    rw [writeAt_length]
    exact Nat.not_lt.mpr hbig

/-- A request of `2 ^ 62` bytes gets 8192 bytes of room, whatever is then stored in place. -/
theorem inplace_overrun (data : List Byte) (hlen : data.length = 8193) :
    (runWrites (freshSink Heap.empty) [Write.inplace (2 ^ 62) data] Heap.empty).1 = .ok () ∧
    ∃ b, (GetBin (runWrites (freshSink Heap.empty) [Write.inplace (2 ^ 62) data] Heap.empty).2.1
            (runWrites (freshSink Heap.empty) [Write.inplace (2 ^ 62) data] Heap.empty).2.2).1
          = .ok b ∧ b.size = 8192 := by
  obtain ⟨h1, h2, h3⟩ := EnsureSize_small_product (freshSink Heap.empty) (2 ^ 62) Heap.empty
    (by decide) (by decide) (by decide)
  have h4 : ((freshSink Heap.empty).bin.size + 8192) % SIZE_T = 8192 := by decide
  have h5 : (freshSink Heap.empty).length = 0 := rfl
  have hl : (0 + data.length) % SIZE_T = 8193 := by rw [hlen]; decide
  have key := inplace_clipped (freshSink Heap.empty) (2 ^ 62) data Heap.empty h1
    (by rw [h3, h2, h4, h5, hl]; decide)
  rw [h3, h4] at key
  exact key

/-- C2 as stated fails: after `GetAppendBuffer(2 ^ 62)` on a fresh sink, 8193 bytes stored in
place and committed (8193 <= 2 ^ 62, no allocation failing), `GetBin` returns a binary of
8192 bytes, which is not the chunk written. -/
theorem sink_accumulates_overrun :
    (∀ w ∈ [Write.inplace (2 ^ 62) (List.replicate 8193 0)], w.bytes.length ≤ w.request) ∧
    Heap.empty.noFail ∧
    (runWrites (freshSink Heap.empty) [Write.inplace (2 ^ 62) (List.replicate 8193 0)]
      Heap.empty).1 = .ok () ∧
    ∃ b, (GetBin
          (runWrites (freshSink Heap.empty) [Write.inplace (2 ^ 62) (List.replicate 8193 0)]
            Heap.empty).2.1
          (runWrites (freshSink Heap.empty) [Write.inplace (2 ^ 62) (List.replicate 8193 0)]
            Heap.empty).2.2).1 = .ok b ∧
      b.size = 8192 ∧
      b.data ≠ ([Write.inplace (2 ^ 62) (List.replicate 8193 0)].map Write.bytes).flatten := by
  obtain ⟨hok, b, hb, hsz⟩ := inplace_overrun (List.replicate 8193 0) (List.length_replicate _ _)
  refine ⟨?_, by decide, hok, b, hb, hsz, ?_⟩
  · intro w hw
    rw [List.mem_singleton] at hw
    subst hw
    simp only [Write.bytes, Write.request, List.length_replicate]
    decide
  · intro heq
    have hlen := congrArg List.length heq
    rw [show b.data.length = 8192 from hsz] at hlen
    simp only [List.map_cons, List.map_nil, Write.bytes, List.flatten_cons, List.flatten_nil,
      List.append_nil, List.length_replicate] at hlen
    omega

/-! ## Counting the reallocations -/

theorem ceilDiv_spec (x G : Nat) (hG : 0 < G) :
    ceilDiv x G * G < x + G ∧ x ≤ ceilDiv x G * G := by
  unfold ceilDiv
  have h1 := Nat.div_add_mod (x + G - 1) G
  have h2 := Nat.mod_lt (x + G - 1) hG
  rw [Nat.mul_comm] at h1
  constructor <;> omega

theorem ceilDiv_unique (x G r : Nat) (hG : 0 < G) (h1 : r * G < x + G) (h2 : x ≤ r * G) :
    ceilDiv x G = r := by
  obtain ⟨s1, s2⟩ := ceilDiv_spec x G hG
  rcases Nat.lt_trichotomy (ceilDiv x G) r with hlt | heq | hgt
  · have := Nat.mul_le_mul_right G (Nat.succ_le_of_lt hlt)
    rw [Nat.succ_mul] at this
    omega
  · exact heq
  · have := Nat.mul_le_mul_right G (Nat.succ_le_of_lt hgt)
    rw [Nat.succ_mul] at this
    omega

theorem ceilDiv_mono (x y G : Nat) (hxy : x ≤ y) : ceilDiv x G ≤ ceilDiv y G := by
  unfold ceilDiv
  exact Nat.div_le_div_right (by omega)

theorem ceilDiv_zero (G : Nat) (hG : 0 < G) : ceilDiv 0 G = 0 := by
  unfold ceilDiv
  rw [Nat.zero_add]
  exact Nat.div_eq_of_lt (by omega)

/-- The copying path of `Append` in terms of what `EnsureSize` returns. -/
theorem Append_copy_eq (s : SnappyNifSink) (data : CharPtr) (n : Nat) (h : Heap)
    (hne : data ≠ CharPtr.slot s.length) (hok : (EnsureSize s n h).1 = .ok ()) :
    Append s data n h =
      (.ok (),
       { bin := { (EnsureSize s n h).2.1.bin with
                  data := writeAt (EnsureSize s n h).2.1.bin.data (EnsureSize s n h).2.1.length
                    (readBytes (EnsureSize s n h).2.1.bin data n) },
         length := ((EnsureSize s n h).2.1.length + n) % SIZE_T },
       (EnsureSize s n h).2.2) := by
  unfold Append
  simp only [hne, ne_eq, not_false_eq_true, if_true]
  rcases hr : EnsureSize s n h with ⟨r, s1, h1⟩
  rw [hr] at hok
  cases r with
  | error e => simp at hok
  | ok u => rfl

theorem runWrites_cons_ok (s : SnappyNifSink) (w : Write) (rest : List Write) (h : Heap)
    (hok : (runWrite s w h).1 = .ok ()) :
    runWrites s (w :: rest) h = runWrites (runWrite s w h).2.1 rest (runWrite s w h).2.2 := by
  simp only [runWrites]
  rcases hr : runWrite s w h with ⟨r, s1, h1⟩
  rw [hr] at hok
  cases r with
  | error e => simp at hok
  | ok u => rfl

/-- One copying `Append` of `c` bytes on a sink whose size is `ceilDiv length G * G`, where
`G = growth c`. -/
theorem append_step (s : SnappyNifSink) (data : List Byte) (h : Heap)
    (hsz : s.bin.size = ceilDiv s.length (growth data.length) * growth data.length)
    (hcap : ceilDiv (s.length + data.length) (growth data.length) * growth data.length < SIZE_T)
    (hn : h.noFail) :
    (runWrite s (.copy data) h).1 = .ok () ∧
    (runWrite s (.copy data) h).2.1.length = s.length + data.length ∧
    (runWrite s (.copy data) h).2.1.bin.size
      = ceilDiv (s.length + data.length) (growth data.length) * growth data.length ∧
    (runWrite s (.copy data) h).2.2.nrealloc + ceilDiv s.length (growth data.length)
      = h.nrealloc + ceilDiv (s.length + data.length) (growth data.length) ∧
    (runWrite s (.copy data) h).2.2.noFail := by
  have hg := growth_ge data.length
  have hG : 0 < growth data.length := by omega
  obtain ⟨a1, a2⟩ := ceilDiv_spec s.length (growth data.length) hG
  obtain ⟨b1, b2⟩ := ceilDiv_spec (s.length + data.length) (growth data.length) hG
  have hlt : s.length + data.length < SIZE_T := by omega
  have hne : CharPtr.ext data ≠ CharPtr.slot s.length := by simp
  have e : runWrite s (.copy data) h = Append s (CharPtr.ext data) data.length h := rfl
  rw [e]
  by_cases hle : s.length + data.length ≤ s.bin.size
  · have hE := EnsureSize_enough s data.length h hlt hle
    have hq : ceilDiv (s.length + data.length) (growth data.length)
        = ceilDiv s.length (growth data.length) :=
      ceilDiv_unique _ _ _ hG (by omega) (by omega)
    rw [Append_copy_eq s _ _ h hne (by rw [hE]), hE]
    refine ⟨rfl, Nat.mod_eq_of_lt hlt, ?_, ?_, hn⟩
    · simp only [ErlNifBinary.size, writeAt_length]
      rw [hq]; exact hsz
    · rw [hq]
  · have hgt : s.length + data.length > s.bin.size := by omega
    have hq : ceilDiv (s.length + data.length) (growth data.length)
        = ceilDiv s.length (growth data.length) + 1 :=
      ceilDiv_unique _ _ _ hG (by rw [Nat.succ_mul]; omega) (by rw [Nat.succ_mul]; omega)
    have hcap2 : s.bin.size + growth data.length < SIZE_T := by
      rw [hq, Nat.succ_mul] at hcap; omega
    have hw : NoWrap s data.length := ⟨hlt, by omega, hcap2⟩
    have hE := EnsureSize_grow s data.length h hw hgt (Heap.noFail_nextOk hn)
    rw [Append_copy_eq s _ _ h hne (by rw [hE]), hE]
    refine ⟨rfl, Nat.mod_eq_of_lt hlt, ?_, ?_, Heap.noFail_afterRealloc hn⟩
    · simp only [ErlNifBinary.size, writeAt_length, List.length_append, List.length_replicate]
      rw [hq, Nat.succ_mul]
      have : s.bin.data.length = ceilDiv s.length (growth data.length) * growth data.length := hsz
      omega
    · simp only [Heap.afterRealloc]
      rw [hq]; omega

/-- The closed form of the state after appending chunks of `c` bytes each. -/
theorem appendAll_closed (c : Nat) (chunks : List (List Byte)) :
    ∀ (s : SnappyNifSink) (h : Heap),
      s.bin.size = ceilDiv s.length (growth c) * growth c →
      (∀ d ∈ chunks, d.length = c) →
      ceilDiv (s.length + chunks.length * c) (growth c) * growth c < SIZE_T →
      h.noFail →
      (appendAll s chunks h).1 = .ok () ∧
      (appendAll s chunks h).2.1.length = s.length + chunks.length * c ∧
      (appendAll s chunks h).2.1.bin.size
        = ceilDiv (s.length + chunks.length * c) (growth c) * growth c ∧
      (appendAll s chunks h).2.2.nrealloc + ceilDiv s.length (growth c)
        = h.nrealloc + ceilDiv (s.length + chunks.length * c) (growth c) ∧
      (appendAll s chunks h).2.2.noFail := by
  induction chunks with
  | nil =>
    intro s h hsz _ _ hn
    simp only [appendAll, List.map_nil, runWrites, List.length_nil, Nat.zero_mul, Nat.add_zero]
    exact ⟨trivial, trivial, hsz, trivial, hn⟩
  | cons d rest ih =>
    intro s h hsz hc hcap hn
    have hd : d.length = c := hc d (List.mem_cons_self _ _)
    subst hd
    have harg : s.length + d.length + rest.length * d.length
        = s.length + (d :: rest).length * d.length := by
      rw [List.length_cons, Nat.succ_mul]; omega
    have hmono : ceilDiv (s.length + d.length) (growth d.length) * growth d.length
        ≤ ceilDiv (s.length + (d :: rest).length * d.length) (growth d.length)
          * growth d.length :=
      Nat.mul_le_mul_right _ (ceilDiv_mono _ _ _ (by rw [← harg]; omega))
    obtain ⟨s1, s2, s3, s4, s5⟩ := append_step s d h hsz (by omega) hn
    have hrun : appendAll s (d :: rest) h
        = appendAll (runWrite s (.copy d) h).2.1 rest (runWrite s (.copy d) h).2.2 := by
      simp only [appendAll, List.map_cons]
      exact runWrites_cons_ok s _ _ h s1
    rw [hrun]
    have ih1 := ih (runWrite s (.copy d) h).2.1 (runWrite s (.copy d) h).2.2
      (by rw [s3, s2]) (fun x hx => hc x (List.mem_cons_of_mem _ hx))
      (by rw [s2, harg]; exact hcap) s5
    rw [s2, harg] at ih1
    obtain ⟨i1, i2, i3, i4, i5⟩ := ih1
    exact ⟨i1, i2, i3, by omega, i5⟩

theorem ceilDiv_four (k c : Nat) (hc : 0 < c) : ceilDiv (k * c) (c * 4) = ceilDiv k 4 := by
  obtain ⟨a1, a2⟩ := ceilDiv_spec k 4 (by omega)
  apply ceilDiv_unique _ _ _ (by omega)
  · have := Nat.mul_lt_mul_of_pos_right a1 hc
    calc ceilDiv k 4 * (c * 4) = ceilDiv k 4 * 4 * c := by ring
      _ < (k + 4) * c := this
      _ = k * c + c * 4 := by ring
  · calc k * c ≤ ceilDiv k 4 * 4 * c := Nat.mul_le_mul_right c a2
      _ = ceilDiv k 4 * (c * 4) := by ring

/-- The state of a fresh sink after appending chunks of `c` bytes each. -/
theorem appendAll_fresh (c : Nat) (chunks : List (List Byte)) (h0 h : Heap)
    (hc : ∀ d ∈ chunks, d.length = c)
    (hcap : ceilDiv (chunks.length * c) (max (c * 4) 8192) * max (c * 4) 8192 < SIZE_T)
    (hn : h.noFail) :
    (appendAll (freshSink h0) chunks h).1 = .ok () ∧
    (appendAll (freshSink h0) chunks h).2.2.nrealloc
      = h.nrealloc + ceilDiv (chunks.length * c) (max (c * 4) 8192) ∧
    (appendAll (freshSink h0) chunks h).2.1.bin.size
      = ceilDiv (chunks.length * c) (max (c * 4) 8192) * max (c * 4) 8192 ∧
    (appendAll (freshSink h0) chunks h).2.1.length = chunks.length * c ∧
    (2048 ≤ c → ceilDiv (chunks.length * c) (max (c * 4) 8192) = ceilDiv chunks.length 4) := by
  have hG : 0 < growth c := by have := growth_ge c; omega
  have h0len : (freshSink h0).length = 0 := rfl
  have key := appendAll_closed c chunks (freshSink h0) h
    (by rw [h0len, ceilDiv_zero _ hG]; simp [freshSink, ErlNifBinary.size])
    hc (by rw [h0len, Nat.zero_add]; exact hcap) hn
  rw [h0len, Nat.zero_add, ceilDiv_zero _ hG] at key
  obtain ⟨k1, k2, k3, k4, -⟩ := key
  refine ⟨k1, by simpa [growth] using k4, k3, k2, fun h2048 => ?_⟩
  rw [Nat.max_eq_left (by omega)]
  exact ceilDiv_four _ _ (by omega)

/-- C10: the exact reallocation count under constant-size appends, when `size_t`
arithmetic does not wrap.  For every chunk size `c` and every number `k` of copying `Append`
calls of `c` bytes each on a fresh sink, such that the capacity reached,
`ceil(k * c / max(4 * c, 8192)) * max(4 * c, 8192)`, is below `2 ^ 64` (the largest value
the run computes: `k * c` is at most that, and so is `4 * c` once a byte was appended) and
no allocation fails: all calls succeed, the binary is resized exactly
`ceil(k * c / max(4 * c, 8192))` times, its size afterwards is that count times
`max(4 * c, 8192)`, and for `c >= 2048` the count is `ceil(k / 4)`. -/
theorem append_resize_count (c : Nat) (chunks : List (List Byte)) (h0 h : Heap)
    (hc : ∀ d ∈ chunks, d.length = c)
    (hcap : ceilDiv (chunks.length * c) (max (c * 4) 8192) * max (c * 4) 8192 < SIZE_T)
    (hn : h.noFail) :
    (appendAll (freshSink h0) chunks h).1 = .ok () ∧
    (appendAll (freshSink h0) chunks h).2.2.nrealloc
      = h.nrealloc + ceilDiv (chunks.length * c) (max (c * 4) 8192) ∧
    (appendAll (freshSink h0) chunks h).2.1.bin.size
      = ceilDiv (chunks.length * c) (max (c * 4) 8192) * max (c * 4) 8192 ∧
    (appendAll (freshSink h0) chunks h).2.1.length = chunks.length * c ∧
    (2048 ≤ c → ceilDiv (chunks.length * c) (max (c * 4) 8192) = ceilDiv chunks.length 4) :=
  appendAll_fresh c chunks h0 h hc hcap hn

/-- C10, an instance: three appends of 4096 bytes. -/
theorem append_resize_count_witness :
    (∀ d ∈ List.replicate 3 (List.replicate 4096 (0 : Byte)), d.length = 4096) ∧
    ceilDiv ((List.replicate 3 (List.replicate 4096 (0 : Byte))).length * 4096)
      (max (4096 * 4) 8192) * max (4096 * 4) 8192 < SIZE_T ∧
    Heap.empty.noFail ∧
    (appendAll (freshSink Heap.empty) (List.replicate 3 (List.replicate 4096 0)) Heap.empty).2.2.nrealloc
      = Heap.empty.nrealloc
        + ceilDiv ((List.replicate 3 (List.replicate 4096 (0 : Byte))).length * 4096)
            (max (4096 * 4) 8192) :=
  have h1 : ∀ d ∈ List.replicate 3 (List.replicate 4096 (0 : Byte)), d.length = 4096 :=
    fun d hd => by rw [List.eq_of_mem_replicate hd, List.length_replicate]
  have h2 : ceilDiv ((List.replicate 3 (List.replicate 4096 (0 : Byte))).length * 4096)
      (max (4096 * 4) 8192) * max (4096 * 4) 8192 < SIZE_T := by
    rw [List.length_replicate]; decide
  ⟨h1, h2, by decide,
   (append_resize_count 4096 (List.replicate 3 (List.replicate 4096 0)) Heap.empty Heap.empty
      h1 h2 (by decide)).2.1⟩

/-! ## The growth is linear in the number of bytes -/

/-- What `EnsureSize` does for a request of 2048 bytes, wrapping included. -/
theorem EnsureSize_2048 (s : SnappyNifSink) (h : Heap) (hk : h.nextOk) :
    (EnsureSize s 2048 h).1 = .ok () ∧
    (EnsureSize s 2048 h).2.1.length = s.length ∧
    ((s.length + 2048) % SIZE_T > s.bin.size →
      (EnsureSize s 2048 h).2.1.bin.size = (s.bin.size + 8192) % SIZE_T ∧
      (EnsureSize s 2048 h).2.2 = h.afterRealloc) ∧
    (¬ (s.length + 2048) % SIZE_T > s.bin.size →
      (EnsureSize s 2048 h).2.1.bin.size = s.bin.size ∧ (EnsureSize s 2048 h).2.2 = h) := by
  unfold EnsureSize
  by_cases hgt : (s.length + 2048) % SIZE_T > s.bin.size
  · have hsz : ¬ (2048 * 4 % SIZE_T < 8192) := by decide
    have hv : 2048 * 4 % SIZE_T = 8192 := by decide
    simp only [hgt, if_true, hv, ite_self]
    rw [enif_realloc_binary_ok _ _ _ hk]
    simp only [ErlNifBinary.size, List.length_append, List.length_take, List.length_replicate,
      true_and, not_true_eq_false, false_implies, and_true, true_implies]
    omega
  · simp only [hgt, if_false, not_false_eq_true, true_implies, false_implies, and_self]

/-- One append of 2048 bytes keeps the count of reallocations ahead of the bytes appended:
with `a` reallocations after `j` appends, `2048 * j <= 8192 * a`, also when `length` and
`bin.size` have wrapped. -/
theorem wrap_step (s : SnappyNifSink) (d : List Byte) (h : Heap) (j : Nat)
    (hd : d.length = 2048)
    (hsz : s.bin.size = (8192 * h.nrealloc) % SIZE_T)
    (hlen : s.length = (2048 * j) % SIZE_T)
    (hle : 2048 * j ≤ 8192 * h.nrealloc) (hn : h.noFail) :
    (runWrite s (.copy d) h).1 = .ok () ∧
    (runWrite s (.copy d) h).2.1.bin.size
      = (8192 * (runWrite s (.copy d) h).2.2.nrealloc) % SIZE_T ∧
    (runWrite s (.copy d) h).2.1.length = (2048 * (j + 1)) % SIZE_T ∧
    2048 * (j + 1) ≤ 8192 * (runWrite s (.copy d) h).2.2.nrealloc ∧
    (runWrite s (.copy d) h).2.2.noFail := by
  have e : runWrite s (.copy d) h = Append s (CharPtr.ext d) d.length h := rfl
  obtain ⟨p1, p2, p3, p4⟩ := EnsureSize_2048 s h (Heap.noFail_nextOk hn)
  rw [e, hd, Append_copy_eq s _ 2048 h (by simp) p1]
  simp only [ErlNifBinary.size, writeAt_length, p2]
  by_cases hgt : (s.length + 2048) % SIZE_T > s.bin.size
  · obtain ⟨q1, q2⟩ := p3 hgt
    rw [show (EnsureSize s 2048 h).2.1.bin.data.length = (s.bin.size + 8192) % SIZE_T from q1, q2]
    simp only [Heap.afterRealloc]
    refine ⟨trivial, ?_, ?_, ?_, Heap.noFail_afterRealloc hn⟩
    · rw [hsz]; simp only [SIZE_T]; omega
    · rw [hlen]; simp only [SIZE_T]; omega
    · omega
  · obtain ⟨q1, q2⟩ := p4 hgt
    rw [show (EnsureSize s 2048 h).2.1.bin.data.length = s.bin.size from q1, q2]
    refine ⟨trivial, hsz, ?_, ?_, hn⟩
    · rw [hlen]; simp only [SIZE_T]; omega
    · rw [hsz, hlen] at hgt
      simp only [SIZE_T] at hgt
      omega

theorem appendAll_lower (chunks : List (List Byte)) :
    ∀ (s : SnappyNifSink) (h : Heap) (j : Nat), (∀ d ∈ chunks, d.length = 2048) →
      s.bin.size = (8192 * h.nrealloc) % SIZE_T → s.length = (2048 * j) % SIZE_T →
      2048 * j ≤ 8192 * h.nrealloc → h.noFail →
      2048 * (j + chunks.length) ≤ 8192 * (appendAll s chunks h).2.2.nrealloc := by
  induction chunks with
  | nil => intro s h j _ _ _ hle _; simpa [appendAll, runWrites] using hle
  | cons d rest ih =>
    intro s h j hc hsz hlen hle hn
    obtain ⟨s1, s2, s3, s4, s5⟩ :=
      wrap_step s d h j (hc d (List.mem_cons_self _ _)) hsz hlen hle hn
    have hrun : appendAll s (d :: rest) h
        = appendAll (runWrite s (.copy d) h).2.1 rest (runWrite s (.copy d) h).2.2 := by
      simp only [appendAll, List.map_cons]
      exact runWrites_cons_ok s _ _ h s1
    rw [hrun]
    have := ih _ _ (j + 1) (fun x hx => hc x (List.mem_cons_of_mem _ hx)) s2 s3 s4 s5
    rw [List.length_cons]
    omega

/-- With chunks of 2048 bytes, at least one append in four resizes the binary. -/
theorem resizeCount_lower (chunks : List (List Byte)) (hc : ∀ d ∈ chunks, d.length = 2048) :
    chunks.length ≤ 4 * resizeCount chunks := by
  have := appendAll_lower chunks (freshSink Heap.empty) Heap.empty 0 hc (by decide) (by decide)
    (by decide) (by decide)
  unfold resizeCount
  omega

theorem linear_lt_two_pow (K : Nat) : 2 * K + 7 ≤ 2 ^ (K + 5) := by
  induction K with
  | zero => decide
  | succ n ih =>
    have h3 : 2 ^ (n + 1 + 5) = 2 ^ (n + 5) * 2 := by
      rw [show n + 1 + 5 = (n + 5) + 1 by omega, Nat.pow_succ]
    rw [h3]; omega

theorem quadratic_lt_two_pow (K : Nat) : K * (K + 6) < 2 ^ (K + 5) := by
  induction K with
  | zero => decide
  | succ n ih =>
    have h1 := linear_lt_two_pow n
    have h2 : (n + 1) * (n + 1 + 6) = n * (n + 6) + (2 * n + 7) := by ring
    have h3 : 2 ^ (n + 1 + 5) = 2 ^ (n + 5) * 2 := by
      rw [show n + 1 + 5 = (n + 5) + 1 by omega, Nat.pow_succ]
    rw [h2, h3]
    omega

theorem log2_one_add_two_pow (t : Nat) (ht : 1 ≤ t) : Nat.log2 (1 + 2 ^ t) ≤ t := by
  have h2 : 2 ≤ 2 ^ t := by
    calc 2 = 2 ^ 1 := rfl
      _ ≤ 2 ^ t := Nat.pow_le_pow_right (by omega) ht
  have : Nat.log2 (1 + 2 ^ t) < t + 1 := by
    rw [Nat.log2_lt (by omega), Nat.pow_succ]; omega
  omega

/-- C6 as stated fails: no constant `K` bounds the number of resizing `EnsureSize` calls by
`K * (1 + log2 (1 + k * c / 8192))`; with chunks of 2048 bytes the count is at least `k / 4`. -/
theorem growth_bound_not_logarithmic :
    ¬ ∃ K : Nat, ∀ c k : Nat, 1 ≤ c → 1 ≤ k →
        resizeCount (List.replicate k (List.replicate c 0))
          ≤ K * (1 + Nat.log2 (1 + k * c / 8192)) := by
  rintro ⟨K, hK⟩
  have hpos : 0 < 2 ^ (K + 5) := Nat.two_pow_pos _
  have hb := hK 2048 (4 * 2 ^ (K + 5)) (by omega) (by omega)
  have hlow := resizeCount_lower (List.replicate (4 * 2 ^ (K + 5)) (List.replicate 2048 0))
    (fun d hd => by rw [List.eq_of_mem_replicate hd, List.length_replicate])
  rw [List.length_replicate] at hlow
  have hdiv : 4 * 2 ^ (K + 5) * 2048 / 8192 = 2 ^ (K + 5) := by
    rw [show 4 * 2 ^ (K + 5) * 2048 = 2 ^ (K + 5) * 8192 by ring]
    exact Nat.mul_div_cancel _ (by omega)
  rw [hdiv] at hb
  have hlog := log2_one_add_two_pow (K + 5) (by omega)
  have hq := quadratic_lt_two_pow K
  have hmul : K * (1 + Nat.log2 (1 + 2 ^ (K + 5))) ≤ K * (K + 6) :=
    Nat.mul_le_mul_left K (by omega)
  omega

/-- C6 (amended): the growth bound is linear.  Appending `k` chunks of `c >= 1` bytes each
to a fresh sink, the capacity staying below `2 ^ 64` and no allocation failing, resizes the
binary at most `1 + k * c / 8192` times and at most `ceil(k / 4)` times. -/
theorem growth_bound_linear (c : Nat) (chunks : List (List Byte)) (hc1 : 1 ≤ c)
    (hc : ∀ d ∈ chunks, d.length = c)
    (hcap : ceilDiv (chunks.length * c) (max (c * 4) 8192) * max (c * 4) 8192 < SIZE_T) :
    resizeCount chunks ≤ 1 + chunks.length * c / 8192 ∧
    resizeCount chunks ≤ ceilDiv chunks.length 4 := by
  obtain ⟨-, hcount, -, -, -⟩ :=
    appendAll_fresh c chunks Heap.empty Heap.empty hc hcap (by decide)
  have hres : resizeCount chunks = ceilDiv (chunks.length * c) (max (c * 4) 8192) := by
    unfold resizeCount; rw [hcount]; simp [Heap.empty]
  rw [hres]
  have hG : 0 < max (c * 4) 8192 := by omega
  obtain ⟨a1, -⟩ := ceilDiv_spec (chunks.length * c) (max (c * 4) 8192) hG
  generalize ceilDiv (chunks.length * c) (max (c * 4) 8192) = q at a1
  constructor
  · rcases Nat.eq_zero_or_pos q with h0 | hq
    · omega
    · have h1 : (q - 1) * 8192 ≤ (q - 1) * max (c * 4) 8192 :=
        Nat.mul_le_mul_left _ (by omega)
      have h2 : (q - 1) * max (c * 4) 8192 + max (c * 4) 8192 = q * max (c * 4) 8192 := by
        rw [← Nat.succ_mul]; congr 1; omega
      have h3 : q - 1 ≤ chunks.length * c / 8192 :=
        (Nat.le_div_iff_mul_le (by omega)).mpr (by omega)
      omega
  · rcases Nat.eq_zero_or_pos q with h0 | hq
    · omega
    · have h1 : (q - 1) * (c * 4) ≤ (q - 1) * max (c * 4) 8192 :=
        Nat.mul_le_mul_left _ (by omega)
      have h2 : (q - 1) * max (c * 4) 8192 + max (c * 4) 8192 = q * max (c * 4) 8192 := by
        rw [← Nat.succ_mul]; congr 1; omega
      have h3 : (q - 1) * 4 * c < chunks.length * c := by
        calc (q - 1) * 4 * c = (q - 1) * (c * 4) := by ring
          _ < chunks.length * c := by omega
      have h4 : (q - 1) * 4 < chunks.length := Nat.lt_of_mul_lt_mul_right h3
      unfold ceilDiv
      have := Nat.div_add_mod (chunks.length + 4 - 1) 4
      have := Nat.mod_lt (chunks.length + 4 - 1) (show 0 < 4 by omega)
      omega

/-- C6, an instance: three appends of 4096 bytes resize the binary at most once. -/
theorem growth_bound_linear_witness :
    1 ≤ 4096 ∧
    resizeCount (List.replicate 3 (List.replicate 4096 0))
      ≤ ceilDiv (List.replicate 3 (List.replicate 4096 (0 : Byte))).length 4 :=
  ⟨by decide,
   (growth_bound_linear 4096 (List.replicate 3 (List.replicate 4096 0)) (by decide)
      (fun d hd => by rw [List.eq_of_mem_replicate hd, List.length_replicate])
      (by rw [List.length_replicate]; decide)).2⟩

/-! ## Allocation failures in the sink -/

theorem EnsureSize_tracks (s : SnappyNifSink) (n : Nat) (h : Heap) :
    Tracks s h (EnsureSize s n h) := by
  unfold Tracks EnsureSize
  by_cases hgt : (s.length + n) % SIZE_T > s.bin.size
  · simp only [hgt, if_true]
    by_cases hk : h.nextOk
    · rw [enif_realloc_binary_ok _ _ _ hk]
      exact ⟨Or.inl ⟨⟨(), rfl⟩, rfl⟩, rfl, rfl,
        fun hn => ⟨⟨(), rfl⟩, Heap.noFail_afterRealloc hn⟩⟩
    · rw [enif_realloc_binary_fail _ _ _ hk]
      exact ⟨Or.inr ⟨rfl, rfl⟩, rfl, rfl, fun hn => absurd (Heap.noFail_nextOk hn) hk⟩
  · rw [if_neg hgt]
    exact ⟨Or.inl ⟨⟨(), rfl⟩, rfl⟩, rfl, rfl, fun hn => ⟨⟨(), rfl⟩, hn⟩⟩

theorem Append_tracks (s : SnappyNifSink) (data : CharPtr) (n : Nat) (h : Heap) :
    Tracks s h (Append s data n h) := by
  have t := EnsureSize_tracks s n h
  unfold Tracks at t ⊢
  unfold Append
  by_cases hne : data ≠ CharPtr.slot s.length
  · simp only [hne, ne_eq, not_false_eq_true, if_true]
    rcases hr : EnsureSize s n h with ⟨r, s1, h1⟩
    rw [hr] at t
    cases r with
    | error e =>
      obtain ⟨t1, t2, t3, t4⟩ := t
      refine ⟨?_, t2, t3, fun hn => ?_⟩
      · rcases t1 with ⟨⟨a, ha⟩, -⟩ | t1
        · simp at ha
        · exact Or.inr t1
      · obtain ⟨⟨a, ha⟩, -⟩ := t4 hn
        simp at ha
    | ok u =>
      obtain ⟨t1, t2, t3, t4⟩ := t
      refine ⟨?_, t2, t3, fun hn => ⟨⟨(), rfl⟩, (t4 hn).2⟩⟩
      rcases t1 with ⟨-, t1⟩ | ⟨t1, -⟩
      · exact Or.inl ⟨⟨(), rfl⟩, t1⟩
      · simp at t1
  · rw [if_neg hne]
    exact ⟨Or.inl ⟨⟨(), rfl⟩, rfl⟩, rfl, rfl, fun hn => ⟨⟨(), rfl⟩, hn⟩⟩

theorem GetBin_tracks (s : SnappyNifSink) (h : Heap) : Tracks s h (GetBin s h) := by
  unfold Tracks GetBin
  by_cases hgt : s.bin.size > s.length
  · simp only [hgt, if_true]
    by_cases hk : h.nextOk
    · rw [enif_realloc_binary_ok _ _ _ hk]
      exact ⟨Or.inl ⟨⟨_, rfl⟩, rfl⟩, rfl, rfl,
        fun hn => ⟨⟨_, rfl⟩, Heap.noFail_afterRealloc hn⟩⟩
    · rw [enif_realloc_binary_fail _ _ _ hk]
      exact ⟨Or.inr ⟨rfl, rfl⟩, rfl, rfl, fun hn => absurd (Heap.noFail_nextOk hn) hk⟩
  · rw [if_neg hgt]
    exact ⟨Or.inl ⟨⟨_, rfl⟩, rfl⟩, rfl, rfl, fun hn => ⟨⟨_, rfl⟩, hn⟩⟩

theorem runWrite_tracks (s : SnappyNifSink) (w : Write) (h : Heap) :
    Tracks s h (runWrite s w h) := by
  cases w with
  | copy data => exact Append_tracks s _ _ h
  | inplace len data =>
    have t := EnsureSize_tracks s len h
    rcases hE : (EnsureSize s len h).1 with e | u
    · rw [runWrite_inplace_error s len data h e hE]
      unfold Tracks at t ⊢
      rw [hE] at t
      exact t
    · rw [runWrite_inplace_ok s len data h hE]
      unfold Tracks at t ⊢
      rw [hE] at t
      obtain ⟨t1, t2, t3, t4⟩ := t
      refine ⟨?_, t2, t3, fun hn => ⟨⟨(), rfl⟩, (t4 hn).2⟩⟩
      rcases t1 with ⟨-, t1⟩ | ⟨t1, -⟩
      · exact Or.inl ⟨⟨(), rfl⟩, t1⟩
      · simp at t1

theorem runWrites_tracks (ws : List Write) :
    ∀ (s : SnappyNifSink) (h : Heap), Tracks s h (runWrites s ws h) := by
  induction ws with
  | nil =>
    intro s h
    exact ⟨Or.inl ⟨⟨(), rfl⟩, rfl⟩, rfl, rfl, fun hn => ⟨⟨(), rfl⟩, hn⟩⟩
  | cons w rest ih =>
    intro s h
    have t := runWrite_tracks s w h
    rcases hW : (runWrite s w h).1 with e | u
    · have hrun : runWrites s (w :: rest) h
          = (.error e, (runWrite s w h).2.1, (runWrite s w h).2.2) := by
        simp only [runWrites]
        rcases hr : runWrite s w h with ⟨r, s1, h1⟩
        rw [hr] at hW
        simp only at hW
        subst hW
        rfl
      rw [hrun]
      unfold Tracks at t ⊢
      rw [hW] at t
      exact t
    · rw [runWrites_cons_ok s w rest h hW]
      have t2 := ih (runWrite s w h).2.1 (runWrite s w h).2.2
      unfold Tracks at t t2 ⊢
      rw [hW] at t
      obtain ⟨a1, a2, a3, a4⟩ := t
      obtain ⟨b1, b2, b3, b4⟩ := t2
      have hnf : (runWrite s w h).2.2.nfailed = h.nfailed := by
        rcases a1 with ⟨-, a1⟩ | ⟨a1, -⟩
        · exact a1
        · simp at a1
      refine ⟨?_, b2.trans a2, b3.trans a3, fun hn => b4 (a4 hn).2⟩
      rw [← hnf]; exact b1

/-! ## `snappy_compress` -/

theorem SnappyNifSink.new_fail (h : Heap) (hk : ¬ h.nextOk) :
    SnappyNifSink.new h =
      (.error .bad_alloc, { h with oracle := h.oracle.tail, nfailed := h.nfailed + 1 }) := by
  unfold SnappyNifSink.new
  rw [enif_alloc_binary_fail 0 h hk]

/-- The heap right after the sink's constructor succeeded. -/
theorem compress_after_new (eng : Engine) (input : List Byte) (h : Heap) (hk : h.nextOk) :
    snappy_compress eng (.iolist input) h =
      match eng.runCompress input (freshSink h) h.afterAlloc with
      | (.error e, s2, h2) => (compress_catch e, s2.destroy h2)
      | (.ok (), s2, h2) =>
        match GetBin s2 h2 with
        | (.error e, s3, h3) => (compress_catch e, s3.destroy h3)
        | (.ok b, s3, h3) => (Term.ok (enif_make_binary b h3).1, s3.destroy (enif_make_binary b h3).2) := by
  simp only [snappy_compress, SnappyNifSink.new_ok h hk, Heap.afterAlloc]

/-- The count of failed requests against the result of `snappy_compress`: a call during
which a request failed returns `{error, insufficient_memory}`; every result that is not
`{ok, Binary}` leaves the live allocations as they were; with no failed request and no
exception of the engine the result is `{ok, Binary}`. -/
theorem compress_failure_counts (eng : Engine) (input : List Byte) (h : Heap) :
    (h.nfailed < (snappy_compress eng (.iolist input) h).2.nfailed →
      (snappy_compress eng (.iolist input) h).1 = Term.error Reason.insufficient_memory) ∧
    ((∀ b, (snappy_compress eng (.iolist input) h).1 ≠ Term.ok b) →
      (snappy_compress eng (.iolist input) h).2.live = h.live) ∧
    ((snappy_compress eng (.iolist input) h).2.nfailed = h.nfailed →
      (eng.Compress input).2 = none →
      ∃ b, (snappy_compress eng (.iolist input) h).1 = Term.ok b) ∧
    (h.noFail → (snappy_compress eng (.iolist input) h).2.nfailed = h.nfailed) := by
  by_cases hk : h.nextOk
  · rw [compress_after_new eng input h hk]
    generalize hh1 : h.afterAlloc = h1
    have hnf1 : h1.nfailed = h.nfailed := by rw [← hh1]; rfl
    have hlive1 : h1.live = h.next :: h.live := by rw [← hh1]; rfl
    have hno1 : h.noFail → h1.noFail := by
      intro hn; rw [← hh1]; intro b hb; exact hn b (List.mem_of_mem_tail hb)
    have tw := runWrites_tracks (eng.Compress input).1 (freshSink h) h1
    unfold Tracks at tw
    obtain ⟨w1, w2, w3, w4⟩ := tw
    have href : (freshSink h).bin.ref = h.next := rfl
    unfold Engine.runCompress
    rcases hW : runWrites (freshSink h) (eng.Compress input).1 h1 with ⟨r, s2, h2⟩
    rw [hW] at w1 w2 w3 w4
    simp only at w1 w2 w3 w4
    have hrel : ∀ (s : SnappyNifSink) (hh : Heap), s.bin.ref = h.next →
        hh.live = h.next :: h.live → (s.destroy hh).live = h.live := by
      intro s hh e1 e2
      simp [SnappyNifSink.destroy, enif_release_binary, e1, e2]
    cases r with
    | error e =>
      have he : e = Exn.bad_alloc ∧ h2.nfailed = h.nfailed + 1 := by
        rcases w1 with ⟨⟨a, ha⟩, -⟩ | ⟨w1, w1b⟩
        · simp at ha
        · simp only [Except.error.injEq] at w1
          exact ⟨w1, by rw [w1b, hnf1]⟩
      obtain ⟨he1, he2⟩ := he
      subst he1
      simp only [compress_catch, SnappyNifSink.destroy, enif_release_binary]
      refine ⟨fun _ => trivial, fun _ => ?_, fun hc => by omega, fun hn => ?_⟩
      · rw [w3, hlive1, w2, href]; simp
      · obtain ⟨⟨a, ha⟩, -⟩ := w4 (hno1 hn)
        simp at ha
    | ok u =>
      have hn2 : h2.nfailed = h.nfailed := by
        rcases w1 with ⟨-, w1⟩ | ⟨w1, -⟩
        · rw [w1, hnf1]
        · simp at w1
      rcases hC : (eng.Compress input).2 with _ | e
      · simp only
        have tg := GetBin_tracks s2 h2
        unfold Tracks at tg
        obtain ⟨g1, g2, g3, g4⟩ := tg
        rcases hG : GetBin s2 h2 with ⟨r3, s3, h3⟩
        rw [hG] at g1 g2 g3 g4
        simp only at g1 g2 g3 g4
        cases r3 with
        | error e =>
          have he : e = Exn.bad_alloc ∧ h3.nfailed = h.nfailed + 1 := by
            rcases g1 with ⟨⟨a, ha⟩, -⟩ | ⟨g1, g1b⟩
            · simp at ha
            · simp only [Except.error.injEq] at g1
              exact ⟨g1, by rw [g1b, hn2]⟩
          obtain ⟨he1, he2⟩ := he
          subst he1
          simp only [compress_catch]
          refine ⟨fun _ => trivial, fun _ => ?_, fun hc => ?_, fun hn => ?_⟩
          · exact hrel s3 h3 (g2.trans (w2.trans href)) (g3.trans (w3.trans hlive1))
          · simp only [SnappyNifSink.destroy, enif_release_binary] at hc; omega
          · obtain ⟨⟨a, ha⟩, -⟩ := g4 (w4 (hno1 hn)).2
            simp at ha
        | ok b =>
          have hn3 : h3.nfailed = h.nfailed := by
            rcases g1 with ⟨-, g1⟩ | ⟨g1, -⟩
            · rw [g1, hn2]
            · simp at g1
          simp only [SnappyNifSink.destroy, enif_release_binary, enif_make_binary]
          refine ⟨fun hc => by omega, fun hc => ?_, fun _ _ => ⟨_, rfl⟩, fun _ => hn3⟩
          exact absurd rfl (hc _)
      · simp only
        cases e with
        | bad_alloc =>
          simp only [compress_catch]
          refine ⟨fun _ => trivial, fun _ => ?_, fun _ hc => by simp at hc, fun _ => ?_⟩
          · exact hrel s2 h2 (w2.trans href) (w3.trans hlive1)
          · simpa [SnappyNifSink.destroy, enif_release_binary] using hn2
        | other =>
          simp only [compress_catch]
          refine ⟨fun hc => ?_, fun _ => ?_, fun _ hc => by simp at hc, fun _ => ?_⟩
          · simp only [SnappyNifSink.destroy, enif_release_binary] at hc; omega
          · exact hrel s2 h2 (w2.trans href) (w3.trans hlive1)
          · simpa [SnappyNifSink.destroy, enif_release_binary] using hn2
  · have e : snappy_compress eng (.iolist input) h =
        (Term.error Reason.insufficient_memory,
         { h with oracle := h.oracle.tail, nfailed := h.nfailed + 1 }) := by
      simp only [snappy_compress, SnappyNifSink.new_fail h hk, compress_catch]
    rw [e]
    exact ⟨fun _ => rfl, fun _ => rfl, fun hc => by simp at hc,
      fun hn => absurd (Heap.noFail_nextOk hn) hk⟩

theorem EnsureSize_refused (s : SnappyNifSink) (n : Nat) (h : Heap)
    (hgt : (s.length + n) % SIZE_T > s.bin.size) (hk : ¬ h.nextOk) :
    (EnsureSize s n h).1 = .error .bad_alloc := by
  unfold EnsureSize
  simp only [hgt, if_true]
  rw [enif_realloc_binary_fail _ _ _ hk]

theorem GetBin_refused (s : SnappyNifSink) (h : Heap) (hgt : s.bin.size > s.length)
    (hk : ¬ h.nextOk) : (GetBin s h).1 = .error .bad_alloc := by
  unfold GetBin
  simp only [hgt, if_true]
  rw [enif_realloc_binary_fail _ _ _ hk]

theorem GetBin_data (s : SnappyNifSink) (h : Heap) (b : ErlNifBinary)
    (hb : (GetBin s h).1 = .ok b) : b.data = s.bin.data.take s.length := by
  unfold GetBin at hb
  by_cases hgt : s.bin.size > s.length
  · simp only [hgt, if_true] at hb
    by_cases hk : h.nextOk
    · rw [enif_realloc_binary_ok _ _ _ hk] at hb
      simp only [Except.ok.injEq] at hb
      subst hb
      have h0 : s.length - s.bin.data.length = 0 := by
        unfold ErlNifBinary.size at hgt; omega
      simp [h0]
    · rw [enif_realloc_binary_fail _ _ _ hk] at hb
      simp at hb
  · rw [if_neg hgt] at hb
    simp only [Except.ok.injEq] at hb
    subst hb
    exact (List.take_of_length_le (by unfold ErlNifBinary.size at hgt; omega)).symm

/-- The first write on a fresh sink throws when it asks for room and the reallocation is
refused. -/
theorem first_write_refused (h0 h : Heap) (w : Write) (rest : List Write)
    (hreq : w.request % SIZE_T > 0) (hk : ¬ h.nextOk) :
    (runWrites (freshSink h0) (w :: rest) h).1 = .error .bad_alloc := by
  have hgt : ((freshSink h0).length + w.request) % SIZE_T > (freshSink h0).bin.size := by
    show (0 + w.request) % SIZE_T > 0
    rw [Nat.zero_add]; exact hreq
  have hE := EnsureSize_refused (freshSink h0) w.request h hgt hk
  have hW : (runWrite (freshSink h0) w h).1 = .error .bad_alloc := by
    cases w with
    | copy data =>
      simp only [Write.request] at hE
      show (Append (freshSink h0) (CharPtr.ext data) data.length h).1 = _
      unfold Append
      have hne : CharPtr.ext data ≠ CharPtr.slot (freshSink h0).length := by simp
      simp only [hne, ne_eq, not_false_eq_true, if_true]
      rcases hr : EnsureSize (freshSink h0) data.length h with ⟨r, s1, h1⟩
      rw [hr] at hE
      simp only at hE
      subst hE
      rfl
    | inplace len data =>
      simp only [Write.request] at hE
      rw [runWrite_inplace_error _ len data h _ hE]
  simp only [runWrites]
  rcases hr : runWrite (freshSink h0) w h with ⟨r, s1, h1⟩
  rw [hr] at hW
  simp only at hW
  subst hW
  rfl

/-- The term `snappy_compress` returns once the constructor succeeded, by what the writes of
the engine, the engine itself and `GetBin` do. -/
theorem compress_value (eng : Engine) (input : List Byte) (h : Heap) (hk : h.nextOk) :
    (snappy_compress eng (.iolist input) h).1 =
      match (runWrites (freshSink h) (eng.Compress input).1 h.afterAlloc).1 with
      | .error e => compress_catch e
      | .ok () =>
        match (eng.Compress input).2 with
        | some e => compress_catch e
        | none =>
          match (GetBin (runWrites (freshSink h) (eng.Compress input).1 h.afterAlloc).2.1
              (runWrites (freshSink h) (eng.Compress input).1 h.afterAlloc).2.2).1 with
          | .error e => compress_catch e
          | .ok b => Term.ok b.data := by
  rw [compress_after_new eng input h hk]
  unfold Engine.runCompress
  rcases runWrites (freshSink h) (eng.Compress input).1 h.afterAlloc with ⟨r, s2, h2⟩
  cases r with
  | error e => rfl
  | ok u =>
    rcases (eng.Compress input).2 with _ | e
    · simp only
      rcases GetBin s2 h2 with ⟨r3, s3, h3⟩
      cases r3 <;> rfl
    · rfl

/-- C9: allocation failures in `snappy_compress`.  For every input and heap: when the
constructor's allocation is refused the result is `{error, insufficient_memory}`; when a
write of the engine throws (only `EnsureSize` does, on a refused reallocation; in
particular when the first write asks for room and the reallocation is refused) the result
is `{error, insufficient_memory}`; when the final shrink in `GetBin` is needed and refused
the result is `{error, insufficient_memory}`; in all these cases and for every result that
is not `{ok, Binary}` the live allocations are as on entry, so no buffer is returned or
kept.  When no request can fail and the engine does not throw, the result is `{ok, Binary}`
with the bytes of the binary `GetBin` returns, which are the `length` bytes committed.  Counted on the heap: a call during which a
request failed returns `{error, insufficient_memory}`, and a call with no failed request
and no exception of the engine returns `{ok, Binary}`. -/
theorem compress_allocation_failure (eng : Engine) (input : List Byte) (h : Heap) :
    (¬ h.nextOk →
      (snappy_compress eng (.iolist input) h).1 = Term.error Reason.insufficient_memory) ∧
    (h.nextOk → ∀ e,
      (runWrites (freshSink h) (eng.Compress input).1 h.afterAlloc).1 = .error e →
      (snappy_compress eng (.iolist input) h).1 = Term.error Reason.insufficient_memory) ∧
    (h.nextOk → ∀ w rest, (eng.Compress input).1 = w :: rest → w.request % SIZE_T > 0 →
      ¬ h.afterAlloc.nextOk →
      (snappy_compress eng (.iolist input) h).1 = Term.error Reason.insufficient_memory) ∧
    (h.nextOk → (runWrites (freshSink h) (eng.Compress input).1 h.afterAlloc).1 = .ok () →
      (eng.Compress input).2 = none →
      (runWrites (freshSink h) (eng.Compress input).1 h.afterAlloc).2.1.bin.size
        > (runWrites (freshSink h) (eng.Compress input).1 h.afterAlloc).2.1.length →
      ¬ (runWrites (freshSink h) (eng.Compress input).1 h.afterAlloc).2.2.nextOk →
      (snappy_compress eng (.iolist input) h).1 = Term.error Reason.insufficient_memory) ∧
    (h.noFail → (eng.Compress input).2 = none →
      ∃ b, (GetBin (runWrites (freshSink h) (eng.Compress input).1 h.afterAlloc).2.1
              (runWrites (freshSink h) (eng.Compress input).1 h.afterAlloc).2.2).1 = .ok b ∧
        (snappy_compress eng (.iolist input) h).1 = Term.ok b.data ∧
        b.data = (runWrites (freshSink h) (eng.Compress input).1 h.afterAlloc).2.1.bin.data.take
          (runWrites (freshSink h) (eng.Compress input).1 h.afterAlloc).2.1.length) ∧
    (h.nfailed < (snappy_compress eng (.iolist input) h).2.nfailed →
      (snappy_compress eng (.iolist input) h).1 = Term.error Reason.insufficient_memory) ∧
    ((∀ b, (snappy_compress eng (.iolist input) h).1 ≠ Term.ok b) →
      (snappy_compress eng (.iolist input) h).2.live = h.live) ∧
    ((snappy_compress eng (.iolist input) h).2.nfailed = h.nfailed →
      (eng.Compress input).2 = none →
      ∃ b, (snappy_compress eng (.iolist input) h).1 = Term.ok b) ∧
    (h.noFail → (snappy_compress eng (.iolist input) h).2.nfailed = h.nfailed) := by
  have tw := runWrites_tracks (eng.Compress input).1 (freshSink h) h.afterAlloc
  have hbad : ∀ e, (runWrites (freshSink h) (eng.Compress input).1 h.afterAlloc).1 = .error e →
      e = Exn.bad_alloc := by
    intro e he
    rcases tw.1 with ⟨⟨a, ha⟩, -⟩ | ⟨t1, -⟩
    · rw [he] at ha; simp at ha
    · rw [he] at t1; simpa using t1
  have hwrite : h.nextOk → ∀ e,
      (runWrites (freshSink h) (eng.Compress input).1 h.afterAlloc).1 = .error e →
      (snappy_compress eng (.iolist input) h).1 = Term.error Reason.insufficient_memory := by
    intro hk e he
    rw [compress_value eng input h hk, he, hbad e he]
    rfl
  refine ⟨fun hk => ?_, hwrite, fun hk w rest hws hreq hk2 => ?_, fun hk hW hC hgt hk2 => ?_,
    fun hn hC => ?_, compress_failure_counts eng input h⟩
  · simp only [snappy_compress, SnappyNifSink.new_fail h hk, compress_catch]
  · apply hwrite hk Exn.bad_alloc
    rw [hws]
    exact first_write_refused h h.afterAlloc w rest hreq hk2
  · rw [compress_value eng input h hk, hW]
    simp only [hC]
    rw [GetBin_refused _ _ hgt hk2]
    rfl
  · have hk := Heap.noFail_nextOk hn
    obtain ⟨⟨a, ha⟩, hnf⟩ := tw.2.2.2 (Heap.noFail_afterAlloc hn)
    obtain ⟨⟨b, hb⟩, -⟩ := (GetBin_tracks _ _).2.2.2 hnf
    refine ⟨b, hb, ?_, GetBin_data _ _ b hb⟩
    rw [compress_value eng input h hk, ha]
    simp only [hC, hb]

/-- C9, instances: with the engine that stores its input, a refused constructor allocation
(oracle `[false]`) and a refused growth at the first write (oracle `[true, false]`) both
give `{error, insufficient_memory}`. -/
theorem compress_allocation_failure_witness :
    ¬ ({ Heap.empty with oracle := [false] } : Heap).nextOk ∧
    (snappy_compress storingEngine (.iolist [1]) { Heap.empty with oracle := [false] }).1
      = Term.error Reason.insufficient_memory ∧
    ({ Heap.empty with oracle := [true, false] } : Heap).nextOk ∧
    ¬ ({ Heap.empty with oracle := [true, false] } : Heap).afterAlloc.nextOk ∧
    (snappy_compress storingEngine (.iolist [1]) { Heap.empty with oracle := [true, false] }).1
      = Term.error Reason.insufficient_memory :=
  ⟨by decide,
   (compress_allocation_failure storingEngine [1] { Heap.empty with oracle := [false] }).1
     (by decide),
   by decide, by decide,
   (compress_allocation_failure storingEngine [1]
      { Heap.empty with oracle := [true, false] }).2.2.1
     (by decide) (Write.copy [1]) [] rfl (by decide) (by decide)⟩

/-! ## `snappy_decompress` -/

theorem decompress_fault_length (eng : Engine) (bin : List Byte) (h : Heap) (e : Exn)
    (hG : eng.GetUncompressedLength bin = .error e) :
    snappy_decompress eng (.iolist bin) h = (Term.error Reason.unknown, h) := by
  simp only [snappy_decompress, hG]

theorem decompress_no_length (eng : Engine) (bin : List Byte) (h : Heap)
    (hG : eng.GetUncompressedLength bin = .ok none) :
    snappy_decompress eng (.iolist bin) h = (Term.error Reason.data_not_compressed, h) := by
  simp only [snappy_decompress, hG]

theorem decompress_no_memory (eng : Engine) (bin : List Byte) (h : Heap) (len : Nat)
    (hG : eng.GetUncompressedLength bin = .ok (some len)) (hk : ¬ h.nextOk) :
    snappy_decompress eng (.iolist bin) h =
      (Term.error Reason.insufficient_memory,
       { h with oracle := h.oracle.tail, nfailed := h.nfailed + 1 }) := by
  simp only [snappy_decompress, hG, enif_alloc_binary_fail len h hk]

theorem decompress_fault_payload (eng : Engine) (bin : List Byte) (h : Heap) (len : Nat)
    (e : Exn) (hG : eng.GetUncompressedLength bin = .ok (some len)) (hk : h.nextOk)
    (hR : eng.RawUncompress bin = .error e) :
    snappy_decompress eng (.iolist bin) h = (Term.error Reason.unknown, h.afterAlloc) := by
  simp only [snappy_decompress, hG, enif_alloc_binary_ok len h hk, hR, Heap.afterAlloc]

theorem decompress_corrupted (eng : Engine) (bin : List Byte) (h : Heap) (len : Nat)
    (out : List Byte) (hG : eng.GetUncompressedLength bin = .ok (some len)) (hk : h.nextOk)
    (hR : eng.RawUncompress bin = .ok (false, out)) :
    snappy_decompress eng (.iolist bin) h
      = (Term.error Reason.corrupted_data, h.afterAlloc) := by
  simp only [snappy_decompress, hG, enif_alloc_binary_ok len h hk, hR, Heap.afterAlloc]

theorem decompress_success (eng : Engine) (bin : List Byte) (h : Heap) (len : Nat)
    (out : List Byte) (hG : eng.GetUncompressedLength bin = .ok (some len)) (hk : h.nextOk)
    (hR : eng.RawUncompress bin = .ok (true, out)) :
    snappy_decompress eng (.iolist bin) h
      = (Term.ok (writeAt (List.replicate len 0) 0 out),
         { h.afterAlloc with live := h.afterAlloc.live.erase h.next }) := by
  simp only [snappy_decompress, hG, enif_alloc_binary_ok len h hk, hR, Heap.afterAlloc,
    enif_make_binary]

/-- C7: the outcome chain of `snappy_decompress`.  The result is
`{error, data_not_compressed}` exactly when `GetUncompressedLength` returns false;
otherwise, with `len` the length it reports, one allocation of `len` bytes is requested and
the result is `{error, insufficient_memory}` exactly when that request fails; otherwise it
is `{error, corrupted_data}` exactly when `RawUncompress` returns false; otherwise it is
`{ok, Binary}` where the binary has `len` bytes and holds what `RawUncompress` stored.  The
result is `{error, unknown}` exactly when the engine throws, and nothing is reallocated. -/
theorem decompress_outcome_chain (eng : Engine) (bin : List Byte) (h : Heap) :
    ((snappy_decompress eng (.iolist bin) h).1 = Term.error Reason.data_not_compressed
      ↔ eng.GetUncompressedLength bin = .ok none) ∧
    ((snappy_decompress eng (.iolist bin) h).1 = Term.error Reason.insufficient_memory
      ↔ ∃ len, eng.GetUncompressedLength bin = .ok (some len) ∧ ¬ h.nextOk) ∧
    ((snappy_decompress eng (.iolist bin) h).1 = Term.error Reason.corrupted_data
      ↔ ∃ len out, eng.GetUncompressedLength bin = .ok (some len) ∧ h.nextOk ∧
          eng.RawUncompress bin = .ok (false, out)) ∧
    (∀ b, (snappy_decompress eng (.iolist bin) h).1 = Term.ok b
      ↔ ∃ len out, eng.GetUncompressedLength bin = .ok (some len) ∧ h.nextOk ∧
          eng.RawUncompress bin = .ok (true, out) ∧
          b = writeAt (List.replicate len 0) 0 out ∧ b.length = len ∧
          (out.length ≤ len → b.take out.length = out)) ∧
    ((snappy_decompress eng (.iolist bin) h).1 = Term.error Reason.unknown
      ↔ (∃ e, eng.GetUncompressedLength bin = .error e) ∨
        ∃ len e, eng.GetUncompressedLength bin = .ok (some len) ∧ h.nextOk ∧
          eng.RawUncompress bin = .error e) ∧
    (snappy_decompress eng (.iolist bin) h).1 ≠ Term.badarg ∧
    (snappy_decompress eng (.iolist bin) h).2.nrealloc = h.nrealloc := by
  rcases hG : eng.GetUncompressedLength bin with e | (_ | len)
  · rw [decompress_fault_length eng bin h e hG]
    simp
  · rw [decompress_no_length eng bin h hG]
    simp
  · by_cases hk : h.nextOk
    · rcases hR : eng.RawUncompress bin with e | ⟨ok, out⟩
      · rw [decompress_fault_payload eng bin h len e hG hk hR]
        simp [hk, Heap.afterAlloc]
      · cases ok
        · rw [decompress_corrupted eng bin h len out hG hk hR]
          simp [hk, Heap.afterAlloc]
        · rw [decompress_success eng bin h len out hG hk hR]
          simp only [hk, Heap.afterAlloc, reduceCtorEq, Except.ok.injEq, Option.some.injEq,
            not_true_eq_false, and_false, exists_false, exists_const, false_and, Term.ok.injEq,
            Prod.mk.injEq, true_and, Bool.true_eq_false, and_true, or_self, ne_eq,
            not_false_eq_true, iff_self, Bool.false_eq_true, exists_and_left, exists_eq_left']
          intro b
          constructor
          · intro hb
            subst hb
            refine ⟨rfl, ?_, fun hle => ?_⟩
            · rw [writeAt_length, List.length_replicate]
            · have := writeAt_take (List.replicate len 0) 0 out
                (by rw [List.length_replicate]; omega)
              simpa using this
          · rintro ⟨hb, -, -⟩
            exact hb.symm
    · rw [decompress_no_memory eng bin h len hG hk]
      simp [hk]

/-- C8, the failing input: with an engine that reports 4 bytes and then rejects the payload,
`snappy_decompress` returns `{error, corrupted_data}` and the binary it allocated is still
live, while nothing was live on entry. -/
theorem decompress_corrupted_leaks :
    (snappy_decompress rejectingEngine (.iolist [4]) Heap.empty).1
      = Term.error Reason.corrupted_data ∧
    (snappy_decompress rejectingEngine (.iolist [4]) Heap.empty).2.live = [0] ∧
    (snappy_decompress rejectingEngine (.iolist [4]) Heap.empty).2.live ≠ Heap.empty.live := by
  decide

/-! ## Round trip -/

theorem writeAt_whole (bytes : List Byte) :
    writeAt (List.replicate bytes.length 0) 0 bytes = bytes := by
  rw [writeAt_eq _ _ _ (by rw [List.length_replicate]; omega)]
  simp

/-- What `snappy_compress` returns when the engine keeps its contract and no allocation
fails: the bytes the engine emitted, on a heap where still no allocation fails. -/
theorem compress_success (eng : Engine) (X : List Byte) (h : Heap)
    (hc : EngineContract eng X) (hn : h.noFail) :
    (snappy_compress eng (.iolist X) h).1 = Term.ok (eng.emitted X) ∧
    (snappy_compress eng (.iolist X) h).2.noFail := by
  rw [compress_after_new eng X h (Heap.noFail_nextOk hn)]
  have run := runWrites_post (eng.Compress X).1 (freshSink h) h.afterAlloc (Nat.le_refl 0)
    hc.protocol (by simpa [freshSink, ErlNifBinary.size] using hc.bounded)
  obtain ⟨hok, hnf⟩ := run.1 (Heap.noFail_afterAlloc hn)
  obtain ⟨hinv, -, -, hdata⟩ := run.2 hok
  unfold Engine.runCompress
  rcases hW : runWrites (freshSink h) (eng.Compress X).1 h.afterAlloc with ⟨r, s2, h2⟩
  rw [hW] at hok hnf hinv hdata
  simp only at hok hnf hinv hdata
  subst hok
  simp only [hc.noThrow]
  have gb := GetBin_post s2 h2 hinv
  have hres := gb.1 (Heap.noFail_nextOk hnf)
  obtain ⟨-, hb2, -, -⟩ := gb.2.1 _ hres
  have hnf3 := gb.2.2 hnf
  rcases hG : GetBin s2 h2 with ⟨r3, s3, h3⟩
  rw [hG] at hres hb2 hnf3
  simp only at hres hb2 hnf3
  subst hres
  simp only [enif_make_binary, SnappyNifSink.destroy, enif_release_binary]
  refine ⟨?_, hnf3⟩
  rw [hb2, hdata]
  simp [freshSink, Engine.emitted]

/-- C1: round trip.  For every byte sequence `X` (the empty one included), every engine that
keeps its contract on `X` and every heap on which no allocation fails, `snappy_compress`
returns `{ok, Z}` for the bytes `Z` the engine emitted, and `snappy_decompress` of `Z`, on
the heap `snappy_compress` left, returns `{ok, X}`. -/
theorem round_trip (eng : Engine) (X : List Byte) (h : Heap)
    (hc : EngineContract eng X) (hn : h.noFail) :
    (snappy_compress eng (.iolist X) h).1 = Term.ok (eng.emitted X) ∧
    (snappy_decompress eng (.iolist (eng.emitted X)) (snappy_compress eng (.iolist X) h).2).1
      = Term.ok X := by
  obtain ⟨h1, h2⟩ := compress_success eng X h hc hn
  refine ⟨h1, ?_⟩
  rw [decompress_success eng _ _ X.length X hc.lengthOf (Heap.noFail_nextOk h2) hc.uncompress,
    writeAt_whole]

theorem storingEngine_contract (X : List Byte) (hX : growth X.length < SIZE_T) :
    EngineContract storingEngine X where
  noThrow := rfl
  protocol := by
    intro w hw
    have : w = Write.copy X := by simpa [storingEngine] using hw
    subst this
    exact Nat.le_refl _
  bounded := by simpa [storingEngine, roomBound] using hX
  lengthOf := by simp [storingEngine, Engine.emitted, Write.bytes]
  uncompress := by simp [storingEngine, Engine.emitted, Write.bytes]

/-- C1, an instance: the engine that stores its input, on the empty input and on three
bytes. -/
theorem round_trip_witness :
    EngineContract storingEngine [] ∧ EngineContract storingEngine [1, 2, 3] ∧
    Heap.empty.noFail ∧
    (snappy_decompress storingEngine (.iolist (storingEngine.emitted []))
      (snappy_compress storingEngine (.iolist []) Heap.empty).2).1 = Term.ok [] ∧
    (snappy_decompress storingEngine (.iolist (storingEngine.emitted [1, 2, 3]))
      (snappy_compress storingEngine (.iolist [1, 2, 3]) Heap.empty).2).1 = Term.ok [1, 2, 3] :=
  ⟨storingEngine_contract [] (by decide), storingEngine_contract [1, 2, 3] (by decide),
   by decide,
   (round_trip storingEngine [] Heap.empty (storingEngine_contract [] (by decide))
      (by decide)).2,
   (round_trip storingEngine [1, 2, 3] Heap.empty (storingEngine_contract [1, 2, 3] (by decide))
      (by decide)).2⟩

theorem compress_eq_of_ok (eng : Engine) (X : List Byte) (h : Heap) (b : ErlNifBinary)
    (hk : h.nextOk)
    (hW : (runWrites (freshSink h) (eng.Compress X).1 h.afterAlloc).1 = .ok ())
    (hC : (eng.Compress X).2 = none)
    (hG : (GetBin (runWrites (freshSink h) (eng.Compress X).1 h.afterAlloc).2.1
            (runWrites (freshSink h) (eng.Compress X).1 h.afterAlloc).2.2).1 = .ok b) :
    (snappy_compress eng (.iolist X) h).1 = Term.ok b.data := by
  rw [compress_after_new eng X h hk]
  unfold Engine.runCompress
  rcases hr : runWrites (freshSink h) (eng.Compress X).1 h.afterAlloc with ⟨r, s2, h2⟩
  rw [hr] at hW hG
  simp only at hW hG
  subst hW
  simp only [hC]
  rcases hg : GetBin s2 h2 with ⟨r3, s3, h3⟩
  rw [hg] at hG
  simp only at hG
  subst hG
  rfl

theorem overrunning_length (z : List Byte) (hz : z.length = 8193) :
    overrunningEngine.GetUncompressedLength z = .ok (some 0) := by
  show (if z.length = 8193 then _ else _) = _
  rw [if_pos hz]

theorem overrunning_no_length (z : List Byte) (hz : z.length ≠ 8193) :
    overrunningEngine.GetUncompressedLength z = .ok none := by
  show (if z.length = 8193 then _ else _) = _
  rw [if_neg hz]

theorem overrunning_uncompress (z : List Byte) (hz : z.length = 8193) :
    overrunningEngine.RawUncompress z = .ok (true, []) := by
  show (if z.length = 8193 then _ else _) = _
  rw [if_pos hz]

/-- C1 as stated fails: `overrunningEngine` keeps the stated contract on the empty input
(it emits 8193 bytes `Z` through `GetAppendBuffer(2 ^ 62)` and an in-place `Append`, with
`GetUncompressedLength(Z) = 0` and `RawUncompress(Z)` storing nothing), no allocation fails,
and yet `snappy_compress` returns a binary of 8192 bytes, which `snappy_decompress` answers
with `{error, data_not_compressed}`. -/
theorem round_trip_overrun :
    (overrunningEngine.Compress []).2 = none ∧
    (∀ w ∈ (overrunningEngine.Compress []).1, w.bytes.length ≤ w.request) ∧
    overrunningEngine.GetUncompressedLength (overrunningEngine.emitted [])
      = .ok (some ([] : List Byte).length) ∧
    overrunningEngine.RawUncompress (overrunningEngine.emitted []) = .ok (true, []) ∧
    Heap.empty.noFail ∧
    ∃ b, (snappy_compress overrunningEngine (.iolist []) Heap.empty).1 = Term.ok b ∧
      b.length = 8192 ∧
      (snappy_decompress overrunningEngine (.iolist b)
        (snappy_compress overrunningEngine (.iolist []) Heap.empty).2).1
        = Term.error Reason.data_not_compressed := by
  have hem : (overrunningEngine.emitted []).length = 8193 := by
    simp only [Engine.emitted, overrunningEngine, List.map_cons, List.map_nil, Write.bytes,
      List.flatten_cons, List.flatten_nil, List.append_nil, List.length_replicate]
  have hws : (overrunningEngine.Compress []).1
      = [Write.inplace (2 ^ 62) (List.replicate 8193 0)] := rfl
  obtain ⟨p1, p2, p3⟩ := EnsureSize_small_product (freshSink Heap.empty) (2 ^ 62)
    Heap.empty.afterAlloc (by decide) (by decide) (by decide)
  have h4 : ((freshSink Heap.empty).bin.size + 8192) % SIZE_T = 8192 := by decide
  have h5 : (freshSink Heap.empty).length = 0 := rfl
  have hl : (0 + (List.replicate 8193 (0 : Byte)).length) % SIZE_T = 8193 := by
    rw [List.length_replicate]; decide
  obtain ⟨c1, b, c2, c3⟩ := inplace_clipped (freshSink Heap.empty) (2 ^ 62)
    (List.replicate 8193 0) Heap.empty.afterAlloc p1 (by rw [p3, p2, h4, h5, hl]; decide)
  rw [p3, h4] at c3
  have hcomp := compress_eq_of_ok overrunningEngine [] Heap.empty b (by decide)
    (by rw [hws]; exact c1) rfl (by rw [hws]; exact c2)
  refine ⟨rfl, ?_, ?_, ?_, by decide, b.data, hcomp, c3, ?_⟩
  · intro w hw
    rw [hws, List.mem_singleton] at hw
    subst hw
    simp only [Write.bytes, Write.request, List.length_replicate]
    decide
  · exact overrunning_length _ hem
  · exact overrunning_uncompress _ hem
  · apply congrArg Prod.fst (decompress_no_length overrunningEngine b.data _ _)
    apply overrunning_no_length
    rw [show b.data.length = 8192 from c3]
    decide

end SnappyNif
